import Mathlib

/-!
Verification of the Auracle market-notification bot's reconciliation engine
(`src/index.js`).  The engine's pure logic — label cleaning, option
deduplication, winner mapping, and the per-tick state/announcement machine
(`tick`) — is shallowly embedded below; external effects (DOM scraping,
Telegram delivery, the clock) are inputs: each tick receives the scraped
`active`/`trending` card lists, a detail-snapshot oracle keyed by URL, and a
delivery-outcome function for the notifier.  Persistence is modelled by the
state value a tick returns (the JS code writes exactly that state to disk).
-/

namespace Auracle

/-! ## JS-truthiness helpers -/

/-- JS `a || b` for strings: the empty string is falsy. -/
def jsOrS (a b : String) : String := if a ≠ "" then a else b

/-- JS `a || b` on optional values (`undefined`/`null` falsy). -/
def jsOrO {α : Type} (a b : Option α) : Option α :=
  match a with
  | some x => some x
  | none => b

/-- JS truthiness of a possibly-absent string (`card?.category` etc.):
falsy when absent or empty. -/
def optTruthy (s : Option String) : Bool :=
  match s with
  | some x => x ≠ ""
  | none => false

/-- Is `needle` a contiguous substring (JS `String.prototype.includes`)? -/
def listHasSub (needle : List Char) : List Char → Bool
  | [] => needle.isEmpty
  | c :: rest => needle.isPrefixOf (c :: rest) || listHasSub needle rest

def strContains (hay needle : String) : Bool :=
  listHasSub needle.toList hay.toList

/-- JS `toUpperCase` (ASCII, character-wise). -/
def upperStr (s : String) : String := String.mk (s.toList.map Char.toUpper)

/-- JS `trim`: strip leading and trailing whitespace. -/
def trimStr (s : String) : String :=
  String.mk (((s.toList.dropWhile Char.isWhitespace).reverse.dropWhile
    Char.isWhitespace).reverse)

/-- JS `startsWith`. -/
def startsWithStr (s pre : String) : Bool :=
  pre.toList.isPrefixOf s.toList

/-! ## Options, label cleaning (src/index.js lines 110-135) -/

/-- An option `{label, pct}`; `pct` is `number|null` in JS.  Scraped
percentages are integers (`parseInt` / `Math.round` at extraction), so we
model them as `Int`. -/
structure Opt where
  label : String
  pct : Option Int
deriving DecidableEq, Repr

/-- The regex replace `/^CURRENT\s*[–—-]?\s*/i` of `cleanLabel`:
drop a leading case-insensitive `CURRENT`, any whitespace, one optional
dash, and any further whitespace. -/
def stripCurrentTag (s : String) : String :=
  if startsWithStr (upperStr s) "CURRENT" then
    let cs := (s.toList.drop 7).dropWhile Char.isWhitespace
    let cs := match cs with
      | c :: rest => if c = '-' ∨ c = '–' ∨ c = '—' then rest else c :: rest
      | [] => []
    String.mk (cs.dropWhile Char.isWhitespace)
  else s

/-- The regex replace `/\s+/g → ' '`: collapse each whitespace run to one
space. -/
def collapseWs (s : String) : String :=
  String.mk (((s.toList.foldl
    (fun (acc : List Char × Bool) c =>
      if c.isWhitespace then (if acc.2 then acc else (' ' :: acc.1, true))
      else (c :: acc.1, false))
    ([], false)).1).reverse)

def bannedTokens : List String :=
  ["PROBABILITY", "CHART", "POOL", "SPORTS", "WINS", "IMPLIED"]

/-- `cleanLabel` (lines 111-119). -/
def cleanLabel (label : String) : String :=
  if label = "" then ""
  else
    let s := trimStr (stripCurrentTag label)
    if bannedTokens.any (fun b => strContains (upperStr s) b) then ""
    else
      let s := collapseWs s
      if s.length > 40 then String.mk (s.toList.take 40) else s

/-- Loop body of `uniqueOptions` (lines 122-135): dedupe by upper-cased
cleaned label, keep at most 3 (the JS loop breaks right after the third
push). -/
def uniqueOptionsAux : List Opt → List String → List Opt → List Opt
  | [], _, out => out.reverse
  | o :: rest, seen, out =>
    let lbl := cleanLabel o.label
    if lbl = "" then uniqueOptionsAux rest seen out
    else
      let key := upperStr lbl
      if seen.contains key then uniqueOptionsAux rest seen out
      else
        let out' := ⟨lbl, o.pct⟩ :: out
        if out'.length ≥ 3 then out'.reverse
        else uniqueOptionsAux rest (key :: seen) out'

def uniqueOptions (options : List Opt) : List Opt :=
  uniqueOptionsAux options [] []

/-! ## Winner mapping (lines 138-156) -/

/-- `mapWinnerToLabel` (lines 138-156).  `winnerRaw` is `string|null`; JS
`if (!winnerRaw) return null` also catches the empty string. -/
def mapWinnerToLabel (winnerRaw : Option String) (options : List Opt) :
    Option String :=
  match winnerRaw with
  | none => none
  | some w =>
    if w = "" then none
    else
      let r := trimStr w
      let R := upperStr r
      match options.find? (fun o => o.label != "" && strContains R (upperStr o.label)) with
      | some o => some o.label
      | none =>
        if startsWithStr R "YES" then some (((options.get? 0).map Opt.label).getD "YES")
        else if startsWithStr R "NO" then some (((options.get? 1).map Opt.label).getD "NO")
        else if startsWithStr R "DRAW" then some (((options.get? 2).map Opt.label).getD "DRAW")
        else if strContains R "INVALID" then some "Invalid"
        else some r

/-- Modelled from the spec (§4.3), for refinement comparison with
`mapWinnerToLabel`: "(a) if the raw string case-insensitively contains any
known option's label, return that label; (b) else map by convention: a
string starting with YES → first option's label (or literal YES if no
options known), NO → second option's label, DRAW → third option's label;
(c) INVALID anywhere → literal Invalid; (d) else return the trimmed raw
string unchanged."  (An option with an empty label is not a "known label";
matching is performed on the trimmed string.) -/
def specMapWinnerToLabel (raw : String) (options : List Opt) : String :=
  let r := trimStr raw
  let R := upperStr r
  match options.find? (fun o => o.label != "" && strContains R (upperStr o.label)) with
  | some o => o.label
  | none =>
    if startsWithStr R "YES" then ((options.get? 0).map Opt.label).getD "YES"
    else if startsWithStr R "NO" then ((options.get? 1).map Opt.label).getD "NO"
    else if startsWithStr R "DRAW" then ((options.get? 2).map Opt.label).getD "DRAW"
    else if strContains R "INVALID" then "Invalid"
    else r

/-! ## Detail-page option normalization (lines 502-519) -/

/-- Label cleaning of the detail normalizer (line 505):
`o.label.trim().replace(/^CURRENT…/i,'').replace(/\s+/g,' ')`. -/
def detailCleanLabel (l : String) : String :=
  collapseWs (stripCurrentTag (trimStr l))

/-- Line 508: `/(PROBABILITY|CHART|POOL|SPORTS|WINS|IMPLIED)/i.test(U)`
(`U` is already upper-cased, so this is a contains test). -/
def bannedTest (U : String) : Bool :=
  bannedTokens.any (fun b => strContains U b)

/-- `o.pct != null && o.pct >= 0 && o.pct <= 100 ? Math.round(o.pct) : null`
(line 509; `Math.round` is the identity on our integer pcts). -/
def pctValOf (p : Option Int) : Option Int :=
  match p with
  | some p => if 0 ≤ p ∧ p ≤ 100 then some p else none
  | none => none

/-- The `byLabel` map fold (lines 503-512): insertion-ordered map keyed by
upper-cased cleaned label; first-seen label wins, a later in-range pct
overwrites. -/
def dedupDetailAux : List Opt → List (String × Opt) → List (String × Opt)
  | [], acc => acc
  | o :: rest, acc =>
    let L := detailCleanLabel o.label
    if L = "" then dedupDetailAux rest acc
    else
      let U := upperStr L
      if bannedTest U then dedupDetailAux rest acc
      else if acc.any (fun q => q.1 == U) then
        match pctValOf o.pct with
        | some p =>
          dedupDetailAux rest
            (acc.map (fun q => if q.1 == U then (U, { q.2 with pct := some p }) else q))
        | none => dedupDetailAux rest acc
      else dedupDetailAux rest (acc ++ [(U, ⟨L, pctValOf o.pct⟩)])

/-- `norm.slice(0,3)` over the map's values (lines 513-514). -/
def dedupDetail (options : List Opt) : List Opt :=
  ((dedupDetailAux options []).map Prod.snd).take 3

def clamp0100 (x : Int) : Int := max 0 (min 100 x)

/-- 2-way inference (lines 515-519): if exactly two options and exactly one
pct is known, the other becomes `100 - pct` clamped to `[0,100]` (the JS
runs the two `if`s in sequence, so after the first fires the second's
`== null` test fails). -/
def inferPair : List Opt → List Opt
  | [a, b] =>
    match a.pct, b.pct with
    | some p, none => [a, { b with pct := some (clamp0100 (100 - p)) }]
    | none, some q => [{ a with pct := some (clamp0100 (100 - q)) }, b]
    | _, _ => [a, b]
  | l => l

/-- The full normalize/dedupe/infer block of `scrapeMarketDetail`
(lines 502-519). -/
def normalizeDetailOptions (options : List Opt) : List Opt :=
  inferPair (dedupDetail options)

/-! ## Engine data model (tick, lines 691-902) -/

/-- Detail-page status; `scrapeMarketDetail` only ever reports one of these
three (lines 532-534). -/
inductive Status
  | isOpen
  | isClosed
  | isResolved
deriving DecidableEq, Repr

/-- A list-page card (`fetchMarketsFromSections` entry, line 337):
`{id, url, title, category, endsIn, options}`.  `id` may be null;
`category` distinguishes absent from `''` because the code mixes `??`
and `||` on it. -/
structure Card where
  id : Option String
  url : String
  title : String
  category : Option String
  endsIn : String
  options : List Opt
deriving DecidableEq, Repr

/-- A detail-page snapshot (`scrapeMarketDetail` result, lines 597-603).
`endsIn` stands for the value after the wall-clock `closeISO → humanizeEta`
step of lines 727-730 (the scrape itself returns `''`; the clock is an
external input, folded into the oracle).  `category` is absent unless the
enrichment step sets it. -/
structure Snapshot where
  id : Option String
  title : String
  url : String
  status : Status
  options : List Opt
  winner : Option String
  endsIn : String
  category : Option String
deriving DecidableEq, Repr

/-- `lastSeen` (seeded at lines 758-763, refreshed at lines 792-797). -/
structure LastSeen where
  title : String
  category : String
  endsIn : String
  options : List Opt
deriving DecidableEq, Repr

/-- One ledger market record.  `lastStatus = none` is the `'unknown'`
pre-creation sentinel of line 783; `closedSnapshot` holds the frozen
`{options}` or null. -/
structure MarketRec where
  announcedOpen : Bool
  announcedClosed : Bool
  announcedResolved : Bool
  lastStatus : Option Status
  url : String
  missingCount : Nat
  wasTrending : Bool
  retired : Bool
  lastSeen : Option LastSeen
  closedSnapshot : Option (List Opt)
deriving DecidableEq, Repr

/-- The persisted state `{markets, seeded}` (line 45); the market map is an
insertion-ordered string-keyed object, modelled as an association list. -/
structure St where
  markets : List (String × MarketRec)
  seeded : Bool
deriving DecidableEq, Repr

inductive NKind
  | nOpen
  | nClosed
  | nResolved
  | nTrending
deriving DecidableEq, Repr

/-- One `send` call: which market and transition fired, the payload handed
to the formatter, and whether Telegram delivery succeeded (`send` catches
and logs a failure, lines 674-686, so the outcome never reaches `tick`). -/
structure Notif where
  id : String
  kind : NKind
  title : String
  options : List Opt
  winner : Option String
  delivered : Bool
deriving DecidableEq, Repr

/-- The external inputs one tick consumes: the base URL config, the two
scraped lists, and the detail-snapshot oracle (`scrapeMarketDetail` as a
function of the URL; `none` is a failed extraction). -/
structure TickIn where
  base : String
  active : List Card
  trending : List Card
  oracle : String → Option Snapshot

/-! ## Ledger object operations -/

/-- `state.markets[id]` (keys are unique, so first match). -/
def lookupM (ms : List (String × MarketRec)) (k : String) : Option MarketRec :=
  (ms.find? (fun p => p.1 == k)).map Prod.snd

/-- `state.markets[id] = v`: replace in place if the key is present, else
append (JS object insertion order; JS object keys are unique, so replacing
the first occurrence is the object-assignment semantics). -/
def upsertM : List (String × MarketRec) → String → MarketRec →
    List (String × MarketRec)
  | [], k, v => [(k, v)]
  | p :: rest, k, v =>
    if p.1 = k then (k, v) :: rest else p :: upsertM rest k v

/-- `xs.map(m => m.id).filter(Boolean)` (lines 698-699). -/
def cardIds (cs : List Card) : List String :=
  (cs.filterMap Card.id).filter (fun s => s ≠ "")

/-- `new Map(cards.map(m => [m.id, m])).get(k)`: the last card with this id
wins. -/
def mapGet (cs : List Card) (k : String) : Option Card :=
  (cs.filter (fun c => c.id == some k)).getLast?

/-- Order-preserving dedup, for `new Set([...])` spread order. -/
def dedupKeep : List String → List String → List String
  | [], _ => []
  | x :: rest, seen =>
    if seen.contains x then dedupKeep rest seen
    else x :: dedupKeep rest (x :: seen)

/-! ## Tick phases -/

/-- Watch-set (lines 702-705): active ∪ trending ∪ known ids, minus ids
whose record is retired. -/
def watchList (st : St) (i : TickIn) : List String :=
  (dedupKeep (cardIds i.active ++ cardIds i.trending ++ st.markets.map Prod.fst) []).filter
    (fun id => !(((lookupM st.markets id).map MarketRec.retired).getD false))

/-- `AURACLE_BASE_URL.replace(/\/+$/, '')` (line 710). -/
def stripTrailingSlashes (s : String) : String :=
  String.mk (s.toList.reverse.dropWhile (fun c => c = '/')).reverse

/-- Detail-URL priority (lines 715-719):
remembered > active card > trending card > constructed fallback. -/
def urlFor (st : St) (i : TickIn) (id : String) : String :=
  jsOrS (((lookupM st.markets id).map MarketRec.url).getD "")
    (jsOrS (((mapGet i.active id).map Card.url).getD "")
      (jsOrS (((mapGet i.trending id).map Card.url).getD "")
        (stripTrailingSlashes i.base ++ "/MarketDetails?id=" ++ id)))

/-- A snapshot that survived the `!detail?.id` guard, keyed by its own id,
after list-card enrichment. -/
structure EDetail where
  key : String
  title : String
  url : String
  status : Status
  options : List Opt
  winner : Option String
  endsIn : String
  category : Option String
deriving DecidableEq, Repr

/-- Open-market enrichment from the list card (lines 724-738). -/
def enrich (i : TickIn) (d : Snapshot) (key : String) : EDetail :=
  if d.status = Status.isOpen then
    let card := jsOrO (mapGet i.active key) (mapGet i.trending key)
    let endsIn := jsOrS d.endsIn ((card.map Card.endsIn).getD "")
    let category :=
      match card with
      | some c => if optTruthy c.category then c.category else d.category
      | none => d.category
    let options :=
      match card with
      | some c => if c.options.length ≥ 2 then uniqueOptions c.options else d.options
      | none => d.options
    ⟨key, d.title, d.url, d.status, options, d.winner, endsIn, category⟩
  else ⟨key, d.title, d.url, d.status, d.options, d.winner, d.endsIn, d.category⟩

/-- Snapshot-acquisition loop (lines 712-741): scrape each watched id,
skip failed extractions and snapshots without an id. -/
def scrapePhase (st : St) (i : TickIn) : List EDetail :=
  (watchList st i).filterMap (fun id =>
    match i.oracle (urlFor st i id) with
    | none => none
    | some d =>
      match d.id with
      | some k => if k = "" then none else some (enrich i d k)
      | none => none)

/-- Options the record last saw while open (`prev.lastSeen?.options || []`
shape). -/
def prevSeenOpts (prev : MarketRec) : List Opt :=
  ((prev.lastSeen).map LastSeen.options).getD []

/-- First-run seed record (lines 746-765). -/
def seedRec (i : TickIn) (m : EDetail) : MarketRec :=
  let inActive := (cardIds i.active).contains m.key
  let card := jsOrO (mapGet i.active m.key) (mapGet i.trending m.key)
  { announcedOpen := decide (m.status = Status.isOpen) && inActive
    announcedClosed := decide (m.status = Status.isClosed)
    announcedResolved := decide (m.status = Status.isResolved)
    lastStatus := some m.status
    url := m.url
    missingCount := 0
    wasTrending := (cardIds i.trending).contains m.key
    retired := decide (m.status = Status.isResolved)
    lastSeen := some
      { title := m.title
        category := (jsOrO (card.bind Card.category) m.category).getD ""
        endsIn := jsOrS m.endsIn ((card.map Card.endsIn).getD "")
        options := uniqueOptions
          (match card with
           | some c => if c.options ≠ [] then c.options else m.options
           | none => m.options) }
    closedSnapshot :=
      if m.status = Status.isClosed then some (uniqueOptions m.options) else none }

/-- Cold-start seeding (lines 744-771): create a record per snapshot, set
`seeded`, emit nothing. -/
def seedPhase (st : St) (i : TickIn) (results : List EDetail) : St :=
  { markets := results.foldl (fun ms m => upsertM ms m.key (seedRec i m)) st.markets
    seeded := true }

/-- Missing-count update for one record (body of lines 774-777). -/
def bumpRec (i : TickIn) (k : String) (r : MarketRec) : MarketRec :=
  { r with
    missingCount :=
      if (cardIds i.active).contains k || (cardIds i.trending).contains k then 0
      else r.missingCount + 1 }

/-- Missing-count bookkeeping (lines 773-777). -/
def bumpMissing (i : TickIn) (ms : List (String × MarketRec)) :
    List (String × MarketRec) :=
  ms.map (fun p => (p.1, bumpRec i p.1 p.2))

/-- The default `prev` for an unknown market (lines 781-785). -/
def defaultRec (url : String) : MarketRec :=
  { announcedOpen := false, announcedClosed := false, announcedResolved := false
    lastStatus := none, url := url, missingCount := 0, wasTrending := false
    retired := false, lastSeen := none, closedSnapshot := none }

/-- Step 1, `lastSeen` refresh while open (lines 788-798). -/
def stepLastSeen (i : TickIn) (m : EDetail) (prev next : MarketRec) : MarketRec :=
  if m.status = Status.isOpen then
    let card := jsOrO (mapGet i.active m.key) (mapGet i.trending m.key)
    let seenOpts :=
      match card with
      | some c => if c.options ≠ [] then c.options else m.options
      | none => m.options
    { next with lastSeen := some (
      { title := m.title
        category :=
          (jsOrO (card.bind Card.category)
            (jsOrO m.category ((prev.lastSeen).map LastSeen.category))).getD ""
        endsIn := jsOrS m.endsIn
          (jsOrS ((card.map Card.endsIn).getD "")
            (((prev.lastSeen).map LastSeen.endsIn).getD ""))
        options := uniqueOptions
          (if seenOpts ≠ [] then seenOpts else prevSeenOpts prev) } : LastSeen) }
  else next

/-- Step 2, `closedSnapshot` capture on first closed detect (lines 800-804). -/
def stepCapture (m : EDetail) (prev next : MarketRec) : MarketRec :=
  if m.status = Status.isClosed ∧ prev.announcedClosed = false ∧
      next.closedSnapshot = none then
    { next with closedSnapshot := some (uniqueOptions
        (if prevSeenOpts prev ≠ [] then prevSeenOpts prev else m.options)) }
  else next

/-- `m.title || prev.lastSeen?.title || 'Unknown'` (lines 817, 836, 853). -/
def payloadTitle (m : EDetail) (prev : MarketRec) : String :=
  jsOrS m.title (jsOrS (((prev.lastSeen).map LastSeen.title).getD "") "Unknown")

/-- `card?.options?.length ? card.options : prev.lastSeen?.options?.length ?
prev.lastSeen.options : m.options` (lines 809-813, 867-871). -/
def payloadOpts (card : Option Card) (m : EDetail) (prev : MarketRec) : List Opt :=
  uniqueOptions
    (match card with
     | some c =>
       if c.options ≠ [] then c.options
       else if prevSeenOpts prev ≠ [] then prevSeenOpts prev else m.options
     | none => if prevSeenOpts prev ≠ [] then prevSeenOpts prev else m.options)

/-- The open-announcement payload handed to `fmtNewMarket` (lines 814-823). -/
def openNotif (i : TickIn) (dok : String → NKind → Bool) (m : EDetail)
    (prev : MarketRec) : Notif :=
  ⟨m.key, NKind.nOpen, payloadTitle m prev,
    payloadOpts (mapGet i.active m.key) m prev, none, dok m.key NKind.nOpen⟩

/-- Condition of line 807: open, listed in Active, not yet announced. -/
def openGuard (i : TickIn) (m : EDetail) (prev : MarketRec) : Prop :=
  m.status = Status.isOpen ∧ (cardIds i.active).contains m.key = true ∧
    prev.announcedOpen = false

instance (i : TickIn) (m : EDetail) (prev : MarketRec) :
    Decidable (openGuard i m prev) := by
  unfold openGuard; infer_instance

/-- Step 3, new-market announcement (lines 806-825). -/
def stepOpen (i : TickIn) (dok : String → NKind → Bool) (m : EDetail)
    (prev : MarketRec) (acc : MarketRec × List Notif) : MarketRec × List Notif :=
  if openGuard i m prev then
    ({ acc.1 with announcedOpen := true }, acc.2 ++ [openNotif i dok m prev])
  else acc

/-- `next.closedSnapshot?.options?.length ? next.closedSnapshot.options :
uniqueOptions(prev.lastSeen?.options?.length ? prev.lastSeen.options :
m.options)` (lines 829-831, 846-848). -/
def frozenOrFallback (next prev : MarketRec) (m : EDetail) : List Opt :=
  match next.closedSnapshot with
  | some os =>
    if os ≠ [] then os
    else uniqueOptions (if prevSeenOpts prev ≠ [] then prevSeenOpts prev else m.options)
  | none =>
    uniqueOptions (if prevSeenOpts prev ≠ [] then prevSeenOpts prev else m.options)

/-- The closed-announcement payload (lines 833-840). -/
def closedNotif (dok : String → NKind → Bool) (m : EDetail) (prev next : MarketRec) :
    Notif :=
  ⟨m.key, NKind.nClosed, payloadTitle m prev, frozenOrFallback next prev m, none,
    dok m.key NKind.nClosed⟩

/-- Condition of line 828: closed, not yet announced, previous recorded
status not already closed. -/
def closedGuard (m : EDetail) (prev : MarketRec) : Prop :=
  m.status = Status.isClosed ∧ prev.announcedClosed = false ∧
    prev.lastStatus ≠ some Status.isClosed

instance (m : EDetail) (prev : MarketRec) : Decidable (closedGuard m prev) := by
  unfold closedGuard; infer_instance

/-- Step 4, closed announcement (lines 827-842). -/
def stepClosed (dok : String → NKind → Bool) (m : EDetail) (prev : MarketRec)
    (acc : MarketRec × List Notif) : MarketRec × List Notif :=
  if closedGuard m prev then
    ({ acc.1 with announcedClosed := true }, acc.2 ++ [closedNotif dok m prev acc.1])
  else acc

/-- The resolved-announcement payload (lines 850-857); the raw `m.winner` is
mapped to a display label inside `fmtResolved` via `mapWinnerToLabel`. -/
def resolvedNotif (dok : String → NKind → Bool) (m : EDetail) (prev next : MarketRec) :
    Notif :=
  ⟨m.key, NKind.nResolved, payloadTitle m prev, frozenOrFallback next prev m,
    m.winner, dok m.key NKind.nResolved⟩

/-- Condition of line 845: resolved and not yet announced. -/
def resolvedGuard (m : EDetail) (prev : MarketRec) : Prop :=
  m.status = Status.isResolved ∧ prev.announcedResolved = false

instance (m : EDetail) (prev : MarketRec) : Decidable (resolvedGuard m prev) := by
  unfold resolvedGuard; infer_instance

/-- Step 5, resolved announcement and retirement (lines 844-861). -/
def stepResolved (dok : String → NKind → Bool) (m : EDetail) (prev : MarketRec)
    (acc : MarketRec × List Notif) : MarketRec × List Notif :=
  if resolvedGuard m prev then
    ({ acc.1 with announcedResolved := true, retired := true },
      acc.2 ++ [resolvedNotif dok m prev acc.1])
  else acc

/-- The trending-announcement payload (lines 872-879). -/
def trendingNotif (i : TickIn) (dok : String → NKind → Bool) (m : EDetail)
    (prev : MarketRec) : Notif :=
  let card := jsOrO (mapGet i.active m.key) (mapGet i.trending m.key)
  ⟨m.key, NKind.nTrending,
    jsOrS m.title (jsOrS ((card.map Card.title).getD "")
      (jsOrS (((prev.lastSeen).map LastSeen.title).getD "") "Unknown")),
    payloadOpts card m prev, none, dok m.key NKind.nTrending⟩

/-- Condition of line 865: trending now, was not trending last tick. -/
def trendingGuard (i : TickIn) (m : EDetail) (prev : MarketRec) : Prop :=
  (cardIds i.trending).contains m.key = true ∧ prev.wasTrending = false

instance (i : TickIn) (m : EDetail) (prev : MarketRec) :
    Decidable (trendingGuard i m prev) := by
  unfold trendingGuard; infer_instance

/-- Step 6, trending-entry announcement (lines 863-881); the membership
write-back of line 882 lives in `processOne`. -/
def stepTrending (i : TickIn) (dok : String → NKind → Bool) (m : EDetail)
    (prev : MarketRec) (acc : MarketRec × List Notif) : MarketRec × List Notif :=
  if trendingGuard i m prev then
    (acc.1, acc.2 ++ [trendingNotif i dok m prev])
  else acc

/-- Steps 1-6 for one market, threading the accumulated notification log
(lines 788-881). -/
def procPair (i : TickIn) (dok : String → NKind → Bool) (m : EDetail)
    (prev : MarketRec) (ns : List Notif) : MarketRec × List Notif :=
  let n1 := stepLastSeen i m prev { prev with url := m.url }
  let n2 := stepCapture m prev n1
  let a3 := stepOpen i dok m prev (n2, ns)
  let a4 := stepClosed dok m prev a3
  let a5 := stepResolved dok m prev a4
  stepTrending i dok m prev a5

/-- One iteration of the transitions loop (lines 780-886): steps 1-6, then
the `wasTrending`/`lastStatus` write-back of lines 882-884 and the store of
line 885. -/
def processOne (i : TickIn) (dok : String → NKind → Bool)
    (acc : List (String × MarketRec) × List Notif) (m : EDetail) :
    List (String × MarketRec) × List Notif :=
  let prev := (lookupM acc.1 m.key).getD (defaultRec m.url)
  let a6 := procPair i dok m prev acc.2
  let n7 := { a6.1 with
    wasTrending := (cardIds i.trending).contains m.key
    lastStatus := some m.status }
  (upsertM acc.1 m.key n7, a6.2)

/-- The whole transitions loop. -/
def transitionsPhase (i : TickIn) (dok : String → NKind → Bool)
    (ms : List (String × MarketRec)) (results : List EDetail) :
    List (String × MarketRec) × List Notif :=
  results.foldl (processOne i dok) (ms, [])

def MAX_RETIRED : Nat := 2000

/-- Retired-record cleanup (lines 888-895): triggered by the pre-deletion
record count. -/
def compact (ms : List (String × MarketRec)) : List (String × MarketRec) :=
  if ms.length > MAX_RETIRED then ms.filter (fun p => !p.2.retired) else ms

/-- Record count at the compaction check of line 890-891, for stating
"the cleanup never triggers". -/
def preCompactCount (st : St) (i : TickIn) (dok : String → NKind → Bool) : Nat :=
  (transitionsPhase i dok (bumpMissing i st.markets) (scrapePhase st i)).1.length

/-- One full tick (lines 691-902).  The returned state is what `saveState`
persists; the notif list records the `send` calls in order.  `dok` gives
each delivery's outcome (success/failure), which `send` swallows. -/
def tick (st : St) (i : TickIn) (dok : String → NKind → Bool) :
    St × List Notif :=
  let results := scrapePhase st i
  if st.seeded = false ∧ results ≠ [] then
    (seedPhase st i results, [])
  else
    let afterMissing := bumpMissing i st.markets
    let tp := transitionsPhase i dok afterMissing results
    (⟨compact tp.1, st.seeded⟩, tp.2)

/-- Run a sequence of ticks, concatenating the notification log. -/
def run (st : St) : List (TickIn × (String → NKind → Bool)) → St × List Notif
  | [] => (st, [])
  | p :: rest =>
    let t := tick st p.1 p.2
    let r := run t.1 rest
    (r.1, t.2 ++ r.2)

/-- Notifications for one `(market, kind)` pair in a log. -/
def countN (ns : List Notif) (m : String) (k : NKind) : Nat :=
  (ns.filter (fun n => n.id == m && n.kind == k)).length

/-- The announcement flag guarding duplicate notifications of each kind
(trending has no flag; it is edge-triggered on `wasTrending`). -/
def flagOf (r : MarketRec) : NKind → Bool
  | NKind.nOpen => r.announcedOpen
  | NKind.nClosed => r.announcedClosed
  | NKind.nResolved => r.announcedResolved
  | NKind.nTrending => true

/-! ## Ledger-object lemmas -/

theorem lookupM_cons (p : String × MarketRec) (ms : List (String × MarketRec))
    (k : String) :
    lookupM (p :: ms) k = if p.1 = k then some p.2 else lookupM ms k := by
  unfold lookupM
  rw [List.find?_cons]
  by_cases h : p.1 = k
  · simp [h]
  · rw [show (p.1 == k) = false from beq_eq_false_iff_ne.mpr h, if_neg h]

theorem lookupM_upsertM (ms : List (String × MarketRec)) (k : String)
    (v : MarketRec) (q : String) :
    lookupM (upsertM ms k v) q = if q = k then some v else lookupM ms q := by
  induction ms with
  | nil =>
    unfold upsertM
    rw [lookupM_cons]
    by_cases hq : q = k
    · simp [hq]
    · have hkq : ¬ k = q := fun h => hq h.symm
      simp [hq, hkq, lookupM]
  | cons p rest ih =>
    unfold upsertM
    by_cases hp : p.1 = k
    · rw [if_pos hp, lookupM_cons, lookupM_cons]
      by_cases hq : q = k
      · simp [hq]
      · have hkq : ¬ k = q := fun h => hq h.symm
        simp [hp, hq, hkq]
    · rw [if_neg hp, lookupM_cons, lookupM_cons, ih]
      by_cases hpq : p.1 = q <;> by_cases hq : q = k
      · exact absurd (hpq.trans hq) hp
      · simp [hpq, hq]
      · simp [hpq, hq, hp]
      · simp [hpq, hq]

theorem lookupM_bumpMissing (i : TickIn) (ms : List (String × MarketRec))
    (q : String) :
    lookupM (bumpMissing i ms) q = (lookupM ms q).map (bumpRec i q) := by
  induction ms with
  | nil => rfl
  | cons p rest ih =>
    unfold bumpMissing at ih ⊢
    rw [List.map_cons, lookupM_cons, lookupM_cons]
    by_cases hpq : p.1 = q
    · simp [hpq]
    · simp [hpq, ih]

def keysOf (ms : List (String × MarketRec)) : List String := ms.map Prod.fst

theorem mem_keys_upsertM {q k : String} {v : MarketRec} :
    ∀ {ms : List (String × MarketRec)},
      q ∈ keysOf (upsertM ms k v) → q ∈ keysOf ms ∨ q = k := by
  intro ms
  induction ms with
  | nil =>
    intro h
    simp [upsertM, keysOf] at h
    exact Or.inr h
  | cons p rest ih =>
    intro h
    unfold upsertM at h
    by_cases hp : p.1 = k
    · rw [if_pos hp] at h
      rcases (by simpa [keysOf] using h) with h1 | h2
      · exact Or.inr h1
      · exact Or.inl (by simp [keysOf]; exact Or.inr h2)
    · rw [if_neg hp] at h
      rcases (by simpa [keysOf] using h) with h1 | h2
      · exact Or.inl (by simp [keysOf, h1])
      · rcases ih (by simpa [keysOf] using h2) with h3 | h4
        · exact Or.inl (by simp [keysOf] at h3 ⊢; exact Or.inr h3)
        · exact Or.inr h4

theorem nodup_keys_upsertM {k : String} {v : MarketRec} :
    ∀ {ms : List (String × MarketRec)},
      (keysOf ms).Nodup → (keysOf (upsertM ms k v)).Nodup := by
  intro ms
  induction ms with
  | nil => intro _; simp [upsertM, keysOf]
  | cons p rest ih =>
    intro h
    simp only [keysOf, List.map_cons, List.nodup_cons] at h
    unfold upsertM
    by_cases hp : p.1 = k
    · rw [if_pos hp]
      simp only [keysOf, List.map_cons, List.nodup_cons]
      exact ⟨by rw [← hp]; exact h.1, h.2⟩
    · rw [if_neg hp]
      simp only [keysOf, List.map_cons, List.nodup_cons]
      refine ⟨fun hmem => ?_, ih h.2⟩
      rcases mem_keys_upsertM (by simpa [keysOf] using hmem) with h1 | h2
      · exact h.1 (by simpa [keysOf] using h1)
      · exact hp h2

theorem keysOf_bumpMissing (i : TickIn) (ms : List (String × MarketRec)) :
    keysOf (bumpMissing i ms) = keysOf ms := by
  induction ms with
  | nil => rfl
  | cons p rest ih =>
    unfold bumpMissing at ih ⊢
    simp only [keysOf, List.map_cons] at ih ⊢
    rw [ih]

theorem nodup_keys_compact {ms : List (String × MarketRec)}
    (h : (keysOf ms).Nodup) : (keysOf (compact ms)).Nodup := by
  unfold compact
  split
  · exact ((List.filter_sublist ms).map Prod.fst).nodup h
  · exact h

theorem mem_of_lookupM {ms : List (String × MarketRec)} {q : String}
    {r : MarketRec} (h : lookupM ms q = some r) : (q, r) ∈ ms := by
  unfold lookupM at h
  cases hf : ms.find? (fun p => p.1 == q) with
  | none => rw [hf] at h; simp at h
  | some p0 =>
    rw [hf] at h
    simp only [Option.map, Option.some.injEq] at h
    have hp := List.find?_some hf
    have hmem := List.mem_of_find?_eq_some hf
    have : p0 = (q, r) := by
      cases p0
      simp only [beq_iff_eq] at hp
      simp only at h
      rw [hp, h]
    rw [← this]
    exact hmem

theorem lookupM_eq_of_mem_nodup :
    ∀ {ms : List (String × MarketRec)} {q : String} {r : MarketRec},
      (keysOf ms).Nodup → (q, r) ∈ ms → lookupM ms q = some r := by
  intro ms
  induction ms with
  | nil => intro q r _ hm; simp at hm
  | cons p rest ih =>
    intro q r hN hm
    simp only [keysOf, List.map_cons, List.nodup_cons] at hN
    rw [lookupM_cons]
    rcases List.mem_cons.mp hm with h1 | h2
    · rw [← h1]
      simp
    · have hq : q ∈ keysOf rest := by
        simp only [keysOf, List.mem_map]
        exact ⟨(q, r), h2, rfl⟩
      have hpq : ¬ p.1 = q := fun h => hN.1 (h ▸ (by simpa [keysOf] using hq))
      rw [if_neg hpq]
      exact ih hN.2 h2

theorem lookupM_compact {ms : List (String × MarketRec)} {q : String}
    {r : MarketRec} (hN : (keysOf ms).Nodup)
    (h : lookupM (compact ms) q = some r) : lookupM ms q = some r := by
  unfold compact at h
  split at h
  · exact lookupM_eq_of_mem_nodup hN (List.mem_of_mem_filter (mem_of_lookupM h))
  · exact h

/-! ## Step lemmas -/

section StepLemmas

variable (i : TickIn) (dok : String → NKind → Bool) (m : EDetail)
variable (prev next : MarketRec) (acc : MarketRec × List Notif)

@[simp] theorem stepLastSeen_announcedOpen :
    (stepLastSeen i m prev next).announcedOpen = next.announcedOpen := by
  unfold stepLastSeen; split <;> simp

@[simp] theorem stepLastSeen_announcedClosed :
    (stepLastSeen i m prev next).announcedClosed = next.announcedClosed := by
  unfold stepLastSeen; split <;> simp

@[simp] theorem stepLastSeen_announcedResolved :
    (stepLastSeen i m prev next).announcedResolved = next.announcedResolved := by
  unfold stepLastSeen; split <;> simp

@[simp] theorem stepLastSeen_retired :
    (stepLastSeen i m prev next).retired = next.retired := by
  unfold stepLastSeen; split <;> simp

@[simp] theorem stepLastSeen_closedSnapshot :
    (stepLastSeen i m prev next).closedSnapshot = next.closedSnapshot := by
  unfold stepLastSeen; split <;> simp

@[simp] theorem stepLastSeen_wasTrending :
    (stepLastSeen i m prev next).wasTrending = next.wasTrending := by
  unfold stepLastSeen; split <;> simp

@[simp] theorem stepLastSeen_lastStatus :
    (stepLastSeen i m prev next).lastStatus = next.lastStatus := by
  unfold stepLastSeen; split <;> simp

@[simp] theorem stepCapture_announcedOpen :
    (stepCapture m prev next).announcedOpen = next.announcedOpen := by
  unfold stepCapture; split <;> simp

@[simp] theorem stepCapture_announcedClosed :
    (stepCapture m prev next).announcedClosed = next.announcedClosed := by
  unfold stepCapture; split <;> simp

@[simp] theorem stepCapture_announcedResolved :
    (stepCapture m prev next).announcedResolved = next.announcedResolved := by
  unfold stepCapture; split <;> simp

@[simp] theorem stepCapture_retired :
    (stepCapture m prev next).retired = next.retired := by
  unfold stepCapture; split <;> simp

@[simp] theorem stepCapture_wasTrending :
    (stepCapture m prev next).wasTrending = next.wasTrending := by
  unfold stepCapture; split <;> simp

@[simp] theorem stepCapture_lastStatus :
    (stepCapture m prev next).lastStatus = next.lastStatus := by
  unfold stepCapture; split <;> simp

theorem stepCapture_frozen {s : List Opt} (h : next.closedSnapshot = some s) :
    (stepCapture m prev next).closedSnapshot = some s := by
  unfold stepCapture
  split
  · rename_i hg
    rw [hg.2.2] at h
    cases h
  · exact h

@[simp] theorem stepOpen_fst_announcedOpen :
    (stepOpen i dok m prev acc).1.announcedOpen =
      (acc.1.announcedOpen || decide (openGuard i m prev)) := by
  unfold stepOpen; split <;> rename_i h <;> simp [h]

@[simp] theorem stepOpen_fst_announcedClosed :
    (stepOpen i dok m prev acc).1.announcedClosed = acc.1.announcedClosed := by
  unfold stepOpen; split <;> simp

@[simp] theorem stepOpen_fst_announcedResolved :
    (stepOpen i dok m prev acc).1.announcedResolved = acc.1.announcedResolved := by
  unfold stepOpen; split <;> simp

@[simp] theorem stepOpen_fst_retired :
    (stepOpen i dok m prev acc).1.retired = acc.1.retired := by
  unfold stepOpen; split <;> simp

@[simp] theorem stepOpen_fst_closedSnapshot :
    (stepOpen i dok m prev acc).1.closedSnapshot = acc.1.closedSnapshot := by
  unfold stepOpen; split <;> simp

@[simp] theorem stepOpen_fst_wasTrending :
    (stepOpen i dok m prev acc).1.wasTrending = acc.1.wasTrending := by
  unfold stepOpen; split <;> simp

@[simp] theorem stepOpen_fst_lastStatus :
    (stepOpen i dok m prev acc).1.lastStatus = acc.1.lastStatus := by
  unfold stepOpen; split <;> simp

@[simp] theorem stepOpen_fst_lastSeen :
    (stepOpen i dok m prev acc).1.lastSeen = acc.1.lastSeen := by
  unfold stepOpen; split <;> simp

theorem stepOpen_snd :
    (stepOpen i dok m prev acc).2 =
      acc.2 ++ (if openGuard i m prev then [openNotif i dok m prev] else []) := by
  unfold stepOpen; split <;> rename_i h <;> simp [h]

@[simp] theorem stepClosed_fst_announcedClosed :
    (stepClosed dok m prev acc).1.announcedClosed =
      (acc.1.announcedClosed || decide (closedGuard m prev)) := by
  unfold stepClosed; split <;> rename_i h <;> simp [h]

@[simp] theorem stepClosed_fst_announcedOpen :
    (stepClosed dok m prev acc).1.announcedOpen = acc.1.announcedOpen := by
  unfold stepClosed; split <;> simp

@[simp] theorem stepClosed_fst_announcedResolved :
    (stepClosed dok m prev acc).1.announcedResolved = acc.1.announcedResolved := by
  unfold stepClosed; split <;> simp

@[simp] theorem stepClosed_fst_retired :
    (stepClosed dok m prev acc).1.retired = acc.1.retired := by
  unfold stepClosed; split <;> simp

@[simp] theorem stepClosed_fst_closedSnapshot :
    (stepClosed dok m prev acc).1.closedSnapshot = acc.1.closedSnapshot := by
  unfold stepClosed; split <;> simp

@[simp] theorem stepClosed_fst_wasTrending :
    (stepClosed dok m prev acc).1.wasTrending = acc.1.wasTrending := by
  unfold stepClosed; split <;> simp

@[simp] theorem stepClosed_fst_lastStatus :
    (stepClosed dok m prev acc).1.lastStatus = acc.1.lastStatus := by
  unfold stepClosed; split <;> simp

@[simp] theorem stepClosed_fst_lastSeen :
    (stepClosed dok m prev acc).1.lastSeen = acc.1.lastSeen := by
  unfold stepClosed; split <;> simp

theorem stepClosed_snd :
    (stepClosed dok m prev acc).2 =
      acc.2 ++ (if closedGuard m prev then [closedNotif dok m prev acc.1] else []) := by
  unfold stepClosed; split <;> rename_i h <;> simp [h]

@[simp] theorem stepResolved_fst_announcedResolved :
    (stepResolved dok m prev acc).1.announcedResolved =
      (acc.1.announcedResolved || decide (resolvedGuard m prev)) := by
  unfold stepResolved; split <;> rename_i h <;> simp [h]

@[simp] theorem stepResolved_fst_retired :
    (stepResolved dok m prev acc).1.retired =
      (acc.1.retired || decide (resolvedGuard m prev)) := by
  unfold stepResolved; split <;> rename_i h <;> simp [h]

@[simp] theorem stepResolved_fst_announcedOpen :
    (stepResolved dok m prev acc).1.announcedOpen = acc.1.announcedOpen := by
  unfold stepResolved; split <;> simp

@[simp] theorem stepResolved_fst_announcedClosed :
    (stepResolved dok m prev acc).1.announcedClosed = acc.1.announcedClosed := by
  unfold stepResolved; split <;> simp

@[simp] theorem stepResolved_fst_closedSnapshot :
    (stepResolved dok m prev acc).1.closedSnapshot = acc.1.closedSnapshot := by
  unfold stepResolved; split <;> simp

@[simp] theorem stepResolved_fst_wasTrending :
    (stepResolved dok m prev acc).1.wasTrending = acc.1.wasTrending := by
  unfold stepResolved; split <;> simp

@[simp] theorem stepResolved_fst_lastStatus :
    (stepResolved dok m prev acc).1.lastStatus = acc.1.lastStatus := by
  unfold stepResolved; split <;> simp

@[simp] theorem stepResolved_fst_lastSeen :
    (stepResolved dok m prev acc).1.lastSeen = acc.1.lastSeen := by
  unfold stepResolved; split <;> simp

theorem stepResolved_snd :
    (stepResolved dok m prev acc).2 =
      acc.2 ++ (if resolvedGuard m prev then [resolvedNotif dok m prev acc.1] else []) := by
  unfold stepResolved; split <;> rename_i h <;> simp [h]

@[simp] theorem stepTrending_fst :
    (stepTrending i dok m prev acc).1 = acc.1 := by
  unfold stepTrending; split <;> simp

theorem stepTrending_snd :
    (stepTrending i dok m prev acc).2 =
      acc.2 ++ (if trendingGuard i m prev then [trendingNotif i dok m prev] else []) := by
  unfold stepTrending; split <;> rename_i h <;> simp [h]

end StepLemmas

/-! ## Notification-count lemmas -/

theorem countN_append (xs ys : List Notif) (m : String) (k : NKind) :
    countN (xs ++ ys) m k = countN xs m k + countN ys m k := by
  unfold countN
  rw [List.filter_append, List.length_append]

theorem countN_singleton (n : Notif) (m : String) (k : NKind) :
    countN [n] m k = if n.id = m ∧ n.kind = k then 1 else 0 := by
  unfold countN
  by_cases h1 : n.id = m <;> by_cases h2 : n.kind = k <;>
    simp [List.filter_cons, h1, h2]

/-! ## processOne lemmas -/

section ProcessLemmas

variable (i : TickIn) (dok : String → NKind → Bool) (m : EDetail)
variable (prev : MarketRec)

/-- Each of steps 3-6 only appends to the log, so the whole chain splits
into the incoming log plus the new notifications of this market. -/
theorem procPair_split (ns : List Notif) :
    procPair i dok m prev ns =
      ((procPair i dok m prev []).1, ns ++ (procPair i dok m prev []).2) := by
  unfold procPair
  by_cases hO : openGuard i m prev <;> by_cases hC : closedGuard m prev <;>
    by_cases hR : resolvedGuard m prev <;> by_cases hT : trendingGuard i m prev <;>
    simp [stepOpen, stepClosed, stepResolved, stepTrending, hO, hC, hR, hT]

/-- The notifications steps 3-6 emit for one market. -/
def newNotifs (i : TickIn) (dok : String → NKind → Bool) (m : EDetail)
    (prev : MarketRec) : List Notif :=
  (procPair i dok m prev []).2

theorem newNotifs_ids :
    ∀ n ∈ newNotifs i dok m prev, n.id = m.key := by
  unfold newNotifs procPair
  by_cases hO : openGuard i m prev <;> by_cases hC : closedGuard m prev <;>
    by_cases hR : resolvedGuard m prev <;> by_cases hT : trendingGuard i m prev <;>
    simp [stepOpen, stepClosed, stepResolved, stepTrending, hO, hC, hR, hT,
      openNotif, closedNotif, resolvedNotif, trendingNotif]

theorem countN_newNotifs_nOpen :
    countN (newNotifs i dok m prev) m.key NKind.nOpen =
      if openGuard i m prev then 1 else 0 := by
  unfold newNotifs procPair
  by_cases hO : openGuard i m prev <;> by_cases hC : closedGuard m prev <;>
    by_cases hR : resolvedGuard m prev <;> by_cases hT : trendingGuard i m prev <;>
    simp [stepOpen, stepClosed, stepResolved, stepTrending, hO, hC, hR, hT,
      countN, openNotif, closedNotif, resolvedNotif, trendingNotif]

theorem countN_newNotifs_nClosed :
    countN (newNotifs i dok m prev) m.key NKind.nClosed =
      if closedGuard m prev then 1 else 0 := by
  unfold newNotifs procPair
  by_cases hO : openGuard i m prev <;> by_cases hC : closedGuard m prev <;>
    by_cases hR : resolvedGuard m prev <;> by_cases hT : trendingGuard i m prev <;>
    simp [stepOpen, stepClosed, stepResolved, stepTrending, hO, hC, hR, hT,
      countN, openNotif, closedNotif, resolvedNotif, trendingNotif]

theorem countN_newNotifs_nResolved :
    countN (newNotifs i dok m prev) m.key NKind.nResolved =
      if resolvedGuard m prev then 1 else 0 := by
  unfold newNotifs procPair
  by_cases hO : openGuard i m prev <;> by_cases hC : closedGuard m prev <;>
    by_cases hR : resolvedGuard m prev <;> by_cases hT : trendingGuard i m prev <;>
    simp [stepOpen, stepClosed, stepResolved, stepTrending, hO, hC, hR, hT,
      countN, openNotif, closedNotif, resolvedNotif, trendingNotif]

theorem countN_newNotifs_nTrending :
    countN (newNotifs i dok m prev) m.key NKind.nTrending =
      if trendingGuard i m prev then 1 else 0 := by
  unfold newNotifs procPair
  by_cases hO : openGuard i m prev <;> by_cases hC : closedGuard m prev <;>
    by_cases hR : resolvedGuard m prev <;> by_cases hT : trendingGuard i m prev <;>
    simp [stepOpen, stepClosed, stepResolved, stepTrending, hO, hC, hR, hT,
      countN, openNotif, closedNotif, resolvedNotif, trendingNotif]

theorem countN_newNotifs_ne {q : String} (hq : q ≠ m.key) (k : NKind) :
    countN (newNotifs i dok m prev) q k = 0 := by
  have hq' : ¬ m.key = q := fun h => hq h.symm
  unfold newNotifs procPair
  by_cases hO : openGuard i m prev <;> by_cases hC : closedGuard m prev <;>
    by_cases hR : resolvedGuard m prev <;> by_cases hT : trendingGuard i m prev <;>
    simp [stepOpen, stepClosed, stepResolved, stepTrending, hO, hC, hR, hT,
      countN, openNotif, closedNotif, resolvedNotif, trendingNotif,
      List.filter_cons, hq']

/-- When the previous record already froze a non-empty `closedSnapshot`,
any closed/resolved notification emitted for this market carries exactly
that frozen option list. -/
theorem newNotifs_frozen_payload {s : List Opt}
    (hs : prev.closedSnapshot = some s) (hne : s ≠ []) :
    ∀ n ∈ newNotifs i dok m prev,
      (n.kind = NKind.nClosed ∨ n.kind = NKind.nResolved) → n.options = s := by
  intro n hn hk
  have hfrozen :
      (stepOpen i dok m prev
        (stepCapture m prev (stepLastSeen i m prev { prev with url := m.url }),
          ([] : List Notif))).1.closedSnapshot = some s := by
    rw [stepOpen_fst_closedSnapshot]
    exact stepCapture_frozen m prev _ (by rw [stepLastSeen_closedSnapshot]; exact hs)
  unfold newNotifs procPair at hn
  rw [stepTrending_snd, stepResolved_snd, stepClosed_snd, stepOpen_snd] at hn
  simp only [List.nil_append, List.mem_append] at hn
  rcases hn with ((hn1 | hn2) | hn3) | hn4
  · split at hn1
    · rcases List.mem_singleton.mp hn1 with rfl
      rcases hk with h | h <;> simp [openNotif] at h
    · cases hn1
  · split at hn2
    · rcases List.mem_singleton.mp hn2 with rfl
      show (closedNotif dok m prev _).options = s
      simp only [closedNotif, frozenOrFallback, hfrozen]
      simp [hne]
    · cases hn2
  · split at hn3
    · rcases List.mem_singleton.mp hn3 with rfl
      show (resolvedNotif dok m prev _).options = s
      have h4 :
          (stepClosed dok m prev
            (stepOpen i dok m prev
              (stepCapture m prev (stepLastSeen i m prev { prev with url := m.url }),
                ([] : List Notif)))).1.closedSnapshot = some s := by
        rw [stepClosed_fst_closedSnapshot]
        exact hfrozen
      simp only [resolvedNotif, frozenOrFallback, h4]
      simp [hne]
    · cases hn3
  · split at hn4
    · rcases List.mem_singleton.mp hn4 with rfl
      rcases hk with h | h <;> simp [trendingNotif] at h
    · cases hn4

theorem procPair_fst_announcedOpen (ns : List Notif) :
    (procPair i dok m prev ns).1.announcedOpen =
      (prev.announcedOpen || decide (openGuard i m prev)) := by
  unfold procPair
  simp

theorem procPair_fst_announcedClosed (ns : List Notif) :
    (procPair i dok m prev ns).1.announcedClosed =
      (prev.announcedClosed || decide (closedGuard m prev)) := by
  unfold procPair
  simp

theorem procPair_fst_announcedResolved (ns : List Notif) :
    (procPair i dok m prev ns).1.announcedResolved =
      (prev.announcedResolved || decide (resolvedGuard m prev)) := by
  unfold procPair
  simp

theorem procPair_fst_retired (ns : List Notif) :
    (procPair i dok m prev ns).1.retired =
      (prev.retired || decide (resolvedGuard m prev)) := by
  unfold procPair
  simp

theorem procPair_fst_closedSnapshot_frozen {s : List Opt}
    (hs : prev.closedSnapshot = some s) (ns : List Notif) :
    (procPair i dok m prev ns).1.closedSnapshot = some s := by
  unfold procPair
  simp only [stepTrending_fst, stepResolved_fst_closedSnapshot,
    stepClosed_fst_closedSnapshot, stepOpen_fst_closedSnapshot]
  exact stepCapture_frozen _ _ _ (by rw [stepLastSeen_closedSnapshot]; exact hs)

variable (acc : List (String × MarketRec) × List Notif)

theorem processOne_fst_rec :
    lookupM (processOne i dok acc m).1 m.key =
      some { (procPair i dok m
          ((lookupM acc.1 m.key).getD (defaultRec m.url)) acc.2).1 with
        wasTrending := (cardIds i.trending).contains m.key
        lastStatus := some m.status } := by
  simp only [processOne]
  rw [lookupM_upsertM, if_pos rfl]

theorem processOne_lookup_ne {q : String} (hq : q ≠ m.key) :
    lookupM (processOne i dok acc m).1 q = lookupM acc.1 q := by
  simp only [processOne]
  rw [lookupM_upsertM, if_neg hq]

theorem processOne_keys_nodup (h : (keysOf acc.1).Nodup) :
    (keysOf (processOne i dok acc m).1).Nodup := by
  simp only [processOne]
  exact nodup_keys_upsertM h

theorem processOne_snd_eq :
    (processOne i dok acc m).2 =
      acc.2 ++ newNotifs i dok m ((lookupM acc.1 m.key).getD (defaultRec m.url)) := by
  simp only [processOne]
  rw [procPair_split]
  rfl

theorem processOne_stored {prev : MarketRec}
    (hprev : (lookupM acc.1 m.key).getD (defaultRec m.url) = prev) :
    ∃ r', lookupM (processOne i dok acc m).1 m.key = some r' ∧
      r'.announcedOpen = (prev.announcedOpen || decide (openGuard i m prev)) ∧
      r'.announcedClosed = (prev.announcedClosed || decide (closedGuard m prev)) ∧
      r'.announcedResolved =
        (prev.announcedResolved || decide (resolvedGuard m prev)) ∧
      r'.retired = (prev.retired || decide (resolvedGuard m prev)) ∧
      (∀ s, prev.closedSnapshot = some s → r'.closedSnapshot = some s) ∧
      r'.wasTrending = (cardIds i.trending).contains m.key ∧
      r'.lastStatus = some m.status := by
  subst hprev
  refine ⟨_, processOne_fst_rec i dok m acc, ?_, ?_, ?_, ?_, ?_, ?_, ?_⟩
  · simp [procPair_fst_announcedOpen]
  · simp [procPair_fst_announcedClosed]
  · simp [procPair_fst_announcedResolved]
  · simp [procPair_fst_retired]
  · intro s hs
    simp [procPair_fst_closedSnapshot_frozen i dok m _ hs]
  · simp
  · simp

end ProcessLemmas

/-- The four guards, indexed by notification kind. -/
def guardK (i : TickIn) (m : EDetail) (prev : MarketRec) : NKind → Prop
  | NKind.nOpen => openGuard i m prev
  | NKind.nClosed => closedGuard m prev
  | NKind.nResolved => resolvedGuard m prev
  | NKind.nTrending => trendingGuard i m prev

instance (i : TickIn) (m : EDetail) (prev : MarketRec) (k : NKind) :
    Decidable (guardK i m prev k) :=
  match k with
  | NKind.nOpen => inferInstanceAs (Decidable (openGuard i m prev))
  | NKind.nClosed => inferInstanceAs (Decidable (closedGuard m prev))
  | NKind.nResolved => inferInstanceAs (Decidable (resolvedGuard m prev))
  | NKind.nTrending => inferInstanceAs (Decidable (trendingGuard i m prev))

theorem countN_newNotifs_k (i : TickIn) (dok : String → NKind → Bool)
    (m : EDetail) (prev : MarketRec) (k : NKind) :
    countN (newNotifs i dok m prev) m.key k =
      if guardK i m prev k then 1 else 0 := by
  cases k
  · exact countN_newNotifs_nOpen i dok m prev
  · exact countN_newNotifs_nClosed i dok m prev
  · exact countN_newNotifs_nResolved i dok m prev
  · exact countN_newNotifs_nTrending i dok m prev

/-- A set announcement flag falsifies the corresponding guard. -/
theorem guardK_false_of_flag {i : TickIn} {m : EDetail} {prev : MarketRec}
    {k : NKind} (hk : k ≠ NKind.nTrending) (h : flagOf prev k = true) :
    ¬ guardK i m prev k := by
  cases k
  · exact fun hg => by rw [flagOf] at h; rw [hg.2.2] at h; cases h
  · exact fun hg => by rw [flagOf] at h; rw [hg.2.1] at h; cases h
  · exact fun hg => by rw [flagOf] at h; rw [hg.2] at h; cases h
  · exact absurd rfl hk

/-- The stored record's flag for kind `k`. -/
theorem processOne_stored_flag (i : TickIn) (dok : String → NKind → Bool)
    (m : EDetail) (acc : List (String × MarketRec) × List Notif)
    {prev : MarketRec}
    (hprev : (lookupM acc.1 m.key).getD (defaultRec m.url) = prev)
    {k : NKind} (hk : k ≠ NKind.nTrending) :
    ∃ r', lookupM (processOne i dok acc m).1 m.key = some r' ∧
      flagOf r' k = (flagOf prev k || decide (guardK i m prev k)) := by
  obtain ⟨r', hr', h1, h2, h3, _, _, _, _⟩ :=
    processOne_stored i dok m acc hprev
  refine ⟨r', hr', ?_⟩
  cases k
  · exact h1
  · exact h2
  · exact h3
  · exact absurd rfl hk

/-! ## Transitions-fold invariants -/

/-- The record for `q` exists and carries a set flag for kind `k`. -/
def flagTrue (ms : List (String × MarketRec)) (q : String) (k : NKind) : Prop :=
  ∃ r, lookupM ms q = some r ∧ flagOf r k = true

theorem flagOf_defaultRec {u : String} {k : NKind} (hk : k ≠ NKind.nTrending) :
    flagOf (defaultRec u) k = false := by
  cases k
  · rfl
  · rfl
  · rfl
  · exact absurd rfl hk

theorem flagOf_bumpRec (i : TickIn) (q : String) (r : MarketRec) (k : NKind) :
    flagOf (bumpRec i q r) k = flagOf r k := by
  cases k <;> rfl

theorem flagTrue_bumpMissing (i : TickIn) (ms : List (String × MarketRec))
    (q : String) (k : NKind) :
    flagTrue (bumpMissing i ms) q k ↔ flagTrue ms q k := by
  unfold flagTrue
  rw [lookupM_bumpMissing]
  constructor
  · rintro ⟨r, hr, hf⟩
    cases hl : lookupM ms q with
    | none => rw [hl] at hr; cases hr
    | some r0 =>
      rw [hl] at hr
      simp only [Option.map, Option.some.injEq] at hr
      refine ⟨r0, rfl, ?_⟩
      rw [← flagOf_bumpRec i q r0 k, hr]
      exact hf
  · rintro ⟨r, hr, hf⟩
    exact ⟨bumpRec i q r, by rw [hr]; rfl, by rw [flagOf_bumpRec]; exact hf⟩

/-- Flag-true records stay flag-true through the transitions fold and emit
no further notification of that kind. -/
theorem fold_flag_keep (i : TickIn) (dok : String → NKind → Bool)
    (q : String) (k : NKind) (hk : k ≠ NKind.nTrending) :
    ∀ (results : List EDetail) (acc : List (String × MarketRec) × List Notif),
      flagTrue acc.1 q k →
      flagTrue (List.foldl (processOne i dok) acc results).1 q k ∧
        countN (List.foldl (processOne i dok) acc results).2 q k =
          countN acc.2 q k := by
  intro results
  induction results with
  | nil => intro acc h; exact ⟨h, rfl⟩
  | cons m rest ih =>
    intro acc h
    rw [List.foldl_cons]
    by_cases hq : m.key = q
    · subst hq
      obtain ⟨r0, hr0, hf0⟩ := h
      have hprev : (lookupM acc.1 m.key).getD (defaultRec m.url) = r0 := by
        rw [hr0]; rfl
      obtain ⟨r', hr', hflag⟩ := processOne_stored_flag i dok m acc hprev hk
      have hguard : ¬ guardK i m r0 k := guardK_false_of_flag hk hf0
      have hflag' : flagOf r' k = true := by
        rw [hflag, hf0, Bool.true_or]
      obtain ⟨hA, hB⟩ := ih (processOne i dok acc m) ⟨r', hr', hflag'⟩
      refine ⟨hA, ?_⟩
      rw [hB, processOne_snd_eq, countN_append, hprev, countN_newNotifs_k,
        if_neg hguard, Nat.add_zero]
    · have hq' : q ≠ m.key := fun he => hq he.symm
      have hl := processOne_lookup_ne i dok m acc hq'
      obtain ⟨r0, hr0, hf0⟩ := h
      obtain ⟨hA, hB⟩ :=
        ih (processOne i dok acc m) ⟨r0, by rw [hl]; exact hr0, hf0⟩
      refine ⟨hA, ?_⟩
      rw [hB, processOne_snd_eq, countN_append, countN_newNotifs_ne _ _ _ _ hq',
        Nat.add_zero]

/-- Count/flag invariant: the fold emits at most one `(q, k)` notification
beyond what the flag already accounts for, and a log that is non-empty for
`(q, k)` implies the flag is set. -/
theorem fold_count_inv (i : TickIn) (dok : String → NKind → Bool)
    (q : String) (k : NKind) (hk : k ≠ NKind.nTrending) :
    ∀ (results : List EDetail) (acc : List (String × MarketRec) × List Notif),
      countN acc.2 q k ≤ 1 →
      (¬ flagTrue acc.1 q k → countN acc.2 q k = 0) →
      countN (List.foldl (processOne i dok) acc results).2 q k ≤ 1 ∧
        (¬ flagTrue (List.foldl (processOne i dok) acc results).1 q k →
          countN (List.foldl (processOne i dok) acc results).2 q k = 0) := by
  intro results
  induction results with
  | nil => intro acc h1 h2; exact ⟨h1, h2⟩
  | cons m rest ih =>
    intro acc h1 h2
    rw [List.foldl_cons]
    by_cases hq : m.key = q
    · subst hq
      by_cases hf : flagTrue acc.1 m.key k
      · obtain ⟨hA, hB⟩ := fold_flag_keep i dok m.key k hk [m] acc hf
        rw [List.foldl_cons, List.foldl_nil] at hA hB
        apply ih
        · rw [hB]; exact h1
        · intro hnf; exact absurd hA hnf
      · have h0 : countN acc.2 m.key k = 0 := h2 hf
        set prev := (lookupM acc.1 m.key).getD (defaultRec m.url) with hprev
        obtain ⟨r', hr', hflag⟩ :=
          processOne_stored_flag i dok m acc hprev.symm hk
        have hpf : flagOf prev k = false := by
          cases hl : lookupM acc.1 m.key with
          | none =>
            rw [hprev, hl]
            exact flagOf_defaultRec hk
          | some r0 =>
            have hpr : prev = r0 := by rw [hprev, hl]; rfl
            rw [hpr]
            by_contra hcon
            exact hf ⟨r0, hl, Bool.of_not_eq_false hcon⟩
        rw [hpf, Bool.false_or] at hflag
        have hcount : countN (processOne i dok acc m).2 m.key k =
            (if guardK i m prev k then 1 else 0) := by
          rw [processOne_snd_eq, countN_append, ← hprev, countN_newNotifs_k, h0,
            Nat.zero_add]
        by_cases hg : guardK i m prev k
        · have hft : flagTrue (processOne i dok acc m).1 m.key k :=
            ⟨r', hr', by rw [hflag]; simp [hg]⟩
          obtain ⟨hA, hB⟩ :=
            fold_flag_keep i dok m.key k hk rest (processOne i dok acc m) hft
          refine ⟨?_, fun hnf => absurd hA hnf⟩
          rw [hB, hcount, if_pos hg]
        · apply ih
          · rw [hcount, if_neg hg]
            exact Nat.zero_le 1
          · intro _
            rw [hcount, if_neg hg]
    · have hq' : q ≠ m.key := fun he => hq he.symm
      have hl := processOne_lookup_ne i dok m acc hq'
      have hc : countN (processOne i dok acc m).2 q k = countN acc.2 q k := by
        rw [processOne_snd_eq, countN_append, countN_newNotifs_ne _ _ _ _ hq',
          Nat.add_zero]
      apply ih
      · rw [hc]; exact h1
      · intro hnf
        rw [hc]
        apply h2
        intro hx
        apply hnf
        obtain ⟨r0, hr0, hf0⟩ := hx
        exact ⟨r0, by rw [hl]; exact hr0, hf0⟩

/-! ## Record monotonicity through ticks -/

/-- The monotone fields of a record: announcement flags, the retired bit,
and the frozen closed snapshot. -/
def flagsLe (r r' : MarketRec) : Prop :=
  (r.announcedOpen = true → r'.announcedOpen = true) ∧
  (r.announcedClosed = true → r'.announcedClosed = true) ∧
  (r.announcedResolved = true → r'.announcedResolved = true) ∧
  (r.retired = true → r'.retired = true) ∧
  (∀ s, r.closedSnapshot = some s → r'.closedSnapshot = some s)

theorem flagsLe_refl (r : MarketRec) : flagsLe r r :=
  ⟨id, id, id, id, fun _ h => h⟩

theorem flagsLe_trans {a b c : MarketRec} (h1 : flagsLe a b) (h2 : flagsLe b c) :
    flagsLe a c :=
  ⟨fun h => h2.1 (h1.1 h), fun h => h2.2.1 (h1.2.1 h),
    fun h => h2.2.2.1 (h1.2.2.1 h), fun h => h2.2.2.2.1 (h1.2.2.2.1 h),
    fun s h => h2.2.2.2.2 s (h1.2.2.2.2 s h)⟩

theorem flagsLe_bumpRec (i : TickIn) (q : String) (r : MarketRec) :
    flagsLe r (bumpRec i q r) := by
  refine ⟨?_, ?_, ?_, ?_, ?_⟩ <;> simp [bumpRec]

theorem processOne_flagsLe (i : TickIn) (dok : String → NKind → Bool)
    (acc : List (String × MarketRec) × List Notif) (m : EDetail)
    (q : String) (r : MarketRec) (hr : lookupM acc.1 q = some r) :
    ∃ r', lookupM (processOne i dok acc m).1 q = some r' ∧ flagsLe r r' := by
  by_cases hq : m.key = q
  · subst hq
    have hprev : (lookupM acc.1 m.key).getD (defaultRec m.url) = r := by
      rw [hr]; rfl
    obtain ⟨r', hr', h1, h2, h3, h4, h5, _, _⟩ :=
      processOne_stored i dok m acc hprev
    refine ⟨r', hr', ?_, ?_, ?_, ?_, h5⟩
    · intro h; rw [h1, h, Bool.true_or]
    · intro h; rw [h2, h, Bool.true_or]
    · intro h; rw [h3, h, Bool.true_or]
    · intro h; rw [h4, h, Bool.true_or]
  · refine ⟨r, ?_, flagsLe_refl r⟩
    rw [processOne_lookup_ne i dok m acc (fun he => hq he.symm)]
    exact hr

theorem fold_flagsLe (i : TickIn) (dok : String → NKind → Bool) :
    ∀ (results : List EDetail) (acc : List (String × MarketRec) × List Notif)
      (q : String) (r : MarketRec), lookupM acc.1 q = some r →
      ∃ r', lookupM (List.foldl (processOne i dok) acc results).1 q = some r' ∧
        flagsLe r r' := by
  intro results
  induction results with
  | nil => intro acc q r hr; exact ⟨r, hr, flagsLe_refl r⟩
  | cons m rest ih =>
    intro acc q r hr
    rw [List.foldl_cons]
    obtain ⟨r1, hr1, hle1⟩ := processOne_flagsLe i dok acc m q r hr
    obtain ⟨r', hr', hle2⟩ := ih (processOne i dok acc m) q r1 hr1
    exact ⟨r', hr', flagsLe_trans hle1 hle2⟩

/-- All closed/resolved notifications the fold emits for a market whose
record already froze a non-empty `closedSnapshot` carry that list. -/
theorem fold_frozen_payload (i : TickIn) (dok : String → NKind → Bool)
    (q : String) (s : List Opt) (hne : s ≠ []) :
    ∀ (results : List EDetail) (acc : List (String × MarketRec) × List Notif)
      (r : MarketRec), lookupM acc.1 q = some r → r.closedSnapshot = some s →
      ∀ n ∈ (List.foldl (processOne i dok) acc results).2,
        n ∈ acc.2 ∨
          (n.id = q → (n.kind = NKind.nClosed ∨ n.kind = NKind.nResolved) →
            n.options = s) := by
  intro results
  induction results with
  | nil => intro acc r _ _ n hn; exact Or.inl hn
  | cons m rest ih =>
    intro acc r hr hsnap n hn
    rw [List.foldl_cons] at hn
    obtain ⟨r1, hr1, hle⟩ := processOne_flagsLe i dok acc m q r hr
    have hsnap1 : r1.closedSnapshot = some s := hle.2.2.2.2 s hsnap
    rcases ih (processOne i dok acc m) r1 hr1 hsnap1 n hn with hmem | hgood
    · rw [processOne_snd_eq, List.mem_append] at hmem
      rcases hmem with hold | hnew
      · exact Or.inl hold
      · by_cases hq : m.key = q
        · subst hq
          have hprev : (lookupM acc.1 m.key).getD (defaultRec m.url) = r := by
            rw [hr]; rfl
          right
          intro _ hk
          exact newNotifs_frozen_payload i dok m _ (by rw [hprev]; exact hsnap)
            hne n hnew hk
        · right
          intro hid
          exact absurd ((newNotifs_ids i dok m _ n hnew).symm.trans hid) hq
    · exact Or.inr hgood

/-! ## Key uniqueness through ticks -/

theorem fold_keys_nodup (i : TickIn) (dok : String → NKind → Bool) :
    ∀ (results : List EDetail) (acc : List (String × MarketRec) × List Notif),
      (keysOf acc.1).Nodup →
      (keysOf (List.foldl (processOne i dok) acc results).1).Nodup := by
  intro results
  induction results with
  | nil => intro acc h; exact h
  | cons m rest ih =>
    intro acc h
    rw [List.foldl_cons]
    exact ih (processOne i dok acc m) (processOne_keys_nodup i dok m acc h)

theorem seedfold_keys_nodup (i : TickIn) :
    ∀ (results : List EDetail) (ms : List (String × MarketRec)),
      (keysOf ms).Nodup →
      (keysOf (results.foldl (fun ms m => upsertM ms m.key (seedRec i m)) ms)).Nodup := by
  intro results
  induction results with
  | nil => intro ms h; exact h
  | cons m rest ih =>
    intro ms h
    rw [List.foldl_cons]
    exact ih _ (nodup_keys_upsertM h)

theorem tick_keys_nodup (st : St) (i : TickIn) (dok : String → NKind → Bool)
    (h : (keysOf st.markets).Nodup) :
    (keysOf (tick st i dok).1.markets).Nodup := by
  simp only [tick]
  split
  · exact seedfold_keys_nodup i _ _ h
  · apply nodup_keys_compact
    apply fold_keys_nodup
    rw [show keysOf (bumpMissing i st.markets) = keysOf st.markets from
      keysOf_bumpMissing i st.markets]
    exact h

/-! ## Tick-level lemmas -/

theorem tick_seeded_eq (st : St) (i : TickIn) (dok : String → NKind → Bool)
    (hs : st.seeded = true) :
    tick st i dok =
      (⟨compact (transitionsPhase i dok (bumpMissing i st.markets)
          (scrapePhase st i)).1, st.seeded⟩,
        (transitionsPhase i dok (bumpMissing i st.markets)
          (scrapePhase st i)).2) := by
  unfold tick
  rw [if_neg]
  rintro ⟨h1, _⟩
  rw [hs] at h1
  cases h1

theorem tick_seeded_mono (st : St) (i : TickIn) (dok : String → NKind → Bool)
    (hs : st.seeded = true) : (tick st i dok).1.seeded = true := by
  rw [tick_seeded_eq st i dok hs]
  exact hs

theorem compact_id {ms : List (String × MarketRec)}
    (h : ms.length ≤ MAX_RETIRED) : compact ms = ms := by
  unfold compact
  rw [if_neg (Nat.not_lt.mpr h)]

theorem tick_count (st : St) (i : TickIn) (dok : String → NKind → Bool)
    (q : String) (k : NKind) (hk : k ≠ NKind.nTrending)
    (hs : st.seeded = true)
    (hnc : preCompactCount st i dok ≤ MAX_RETIRED) :
    countN (tick st i dok).2 q k ≤ 1 ∧
      (¬ flagTrue (tick st i dok).1.markets q k →
        countN (tick st i dok).2 q k = 0) ∧
      (flagTrue st.markets q k →
        countN (tick st i dok).2 q k = 0 ∧
          flagTrue (tick st i dok).1.markets q k) := by
  rw [tick_seeded_eq st i dok hs]
  have hcid : compact (transitionsPhase i dok (bumpMissing i st.markets)
      (scrapePhase st i)).1 =
      (transitionsPhase i dok (bumpMissing i st.markets) (scrapePhase st i)).1 :=
    compact_id hnc
  simp only [hcid]
  obtain ⟨h1, h2⟩ := fold_count_inv i dok q k hk (scrapePhase st i)
    (bumpMissing i st.markets, []) (Nat.zero_le 1) (fun _ => rfl)
  refine ⟨h1, h2, fun hf => ?_⟩
  obtain ⟨hA, hB⟩ := fold_flag_keep i dok q k hk (scrapePhase st i)
    (bumpMissing i st.markets, []) ((flagTrue_bumpMissing i st.markets q k).mpr hf)
  exact ⟨hB, hA⟩

/-! ## Run-level lemmas -/

theorem run_cons (st : St) (p : TickIn × (String → NKind → Bool))
    (rest : List (TickIn × (String → NKind → Bool))) :
    run st (p :: rest) =
      ((run (tick st p.1 p.2).1 rest).1,
        (tick st p.1 p.2).2 ++ (run (tick st p.1 p.2).1 rest).2) := rfl

theorem run_nil (st : St) : run st [] = (st, []) := rfl

theorem tick_flagsLe (st : St) (i : TickIn) (dok : String → NKind → Bool)
    (q : String) (r : MarketRec) (hs : st.seeded = true)
    (hnc : preCompactCount st i dok ≤ MAX_RETIRED)
    (hr : lookupM st.markets q = some r) :
    ∃ r', lookupM (tick st i dok).1.markets q = some r' ∧ flagsLe r r' := by
  rw [tick_seeded_eq st i dok hs]
  simp only
  rw [compact_id hnc]
  have hb : lookupM (bumpMissing i st.markets) q = some (bumpRec i q r) := by
    rw [lookupM_bumpMissing, hr]; rfl
  obtain ⟨r', hr', hle⟩ := fold_flagsLe i dok (scrapePhase st i)
    (bumpMissing i st.markets, []) q (bumpRec i q r) hb
  exact ⟨r', hr', flagsLe_trans (flagsLe_bumpRec i q r) hle⟩

theorem run_count (q : String) (k : NKind) (hk : k ≠ NKind.nTrending) :
    ∀ (inputs : List (TickIn × (String → NKind → Bool))) (st : St),
      st.seeded = true →
      (∀ pre p suf, inputs = pre ++ p :: suf →
        preCompactCount (run st pre).1 p.1 p.2 ≤ MAX_RETIRED) →
      countN (run st inputs).2 q k ≤ 1 ∧
        (flagTrue st.markets q k → countN (run st inputs).2 q k = 0) := by
  intro inputs
  induction inputs with
  | nil => intro st _ _; exact ⟨Nat.zero_le 1, fun _ => rfl⟩
  | cons p rest ih =>
    intro st hs H
    have hnc : preCompactCount st p.1 p.2 ≤ MAX_RETIRED := H [] p rest rfl
    have hs' : (tick st p.1 p.2).1.seeded = true := tick_seeded_mono _ _ _ hs
    have H' : ∀ pre' p' suf', rest = pre' ++ p' :: suf' →
        preCompactCount (run (tick st p.1 p.2).1 pre').1 p'.1 p'.2 ≤
          MAX_RETIRED := by
      intro pre' p' suf' he
      exact H (p :: pre') p' suf' (by rw [he, List.cons_append])
    obtain ⟨ihA, ihB⟩ := ih (tick st p.1 p.2).1 hs' H'
    obtain ⟨t1, t2, t3⟩ := tick_count st p.1 p.2 q k hk hs hnc
    rw [run_cons]
    simp only [countN_append]
    constructor
    · by_cases hf : flagTrue (tick st p.1 p.2).1.markets q k
      · rw [ihB hf, Nat.add_zero]
        exact t1
      · rw [t2 hf, Nat.zero_add]
        exact ihA
    · intro hf0
      obtain ⟨hz, hf'⟩ := t3 hf0
      rw [hz, Nat.zero_add]
      exact ihB hf'

theorem run_flagsLe :
    ∀ (inputs : List (TickIn × (String → NKind → Bool))) (st : St)
      (q : String) (r : MarketRec), st.seeded = true →
      (∀ pre p suf, inputs = pre ++ p :: suf →
        preCompactCount (run st pre).1 p.1 p.2 ≤ MAX_RETIRED) →
      lookupM st.markets q = some r →
      ∃ r', lookupM (run st inputs).1.markets q = some r' ∧ flagsLe r r' := by
  intro inputs
  induction inputs with
  | nil => intro st q r _ _ hr; exact ⟨r, hr, flagsLe_refl r⟩
  | cons p rest ih =>
    intro st q r hs H hr
    have hnc : preCompactCount st p.1 p.2 ≤ MAX_RETIRED := H [] p rest rfl
    obtain ⟨r1, hr1, hle1⟩ := tick_flagsLe st p.1 p.2 q r hs hnc hr
    obtain ⟨r', hr', hle2⟩ := ih (tick st p.1 p.2).1 q r1
      (tick_seeded_mono _ _ _ hs)
      (fun pre' p' suf' he => H (p :: pre') p' suf' (by rw [he, List.cons_append]))
      hr1
    exact ⟨r', hr', flagsLe_trans hle1 hle2⟩

theorem tick_frozen_payload (st : St) (i : TickIn) (dok : String → NKind → Bool)
    (q : String) (r : MarketRec) (s : List Opt) (hs : st.seeded = true)
    (hr : lookupM st.markets q = some r) (hsnap : r.closedSnapshot = some s)
    (hne : s ≠ []) :
    ∀ n ∈ (tick st i dok).2, n.id = q →
      (n.kind = NKind.nClosed ∨ n.kind = NKind.nResolved) → n.options = s := by
  rw [tick_seeded_eq st i dok hs]
  simp only [transitionsPhase]
  intro n hn hid hkind
  have hb : lookupM (bumpMissing i st.markets) q = some (bumpRec i q r) := by
    rw [lookupM_bumpMissing, hr]; rfl
  have hbs : (bumpRec i q r).closedSnapshot = some s := by
    simp [bumpRec, hsnap]
  rcases fold_frozen_payload i dok q s hne (scrapePhase st i)
    (bumpMissing i st.markets, []) (bumpRec i q r) hb hbs n hn with h1 | h2
  · cases h1
  · exact h2 hid hkind

theorem run_frozen_payload (q : String) (s : List Opt) (hne : s ≠ []) :
    ∀ (inputs : List (TickIn × (String → NKind → Bool))) (st : St)
      (r : MarketRec), st.seeded = true →
      (∀ pre p suf, inputs = pre ++ p :: suf →
        preCompactCount (run st pre).1 p.1 p.2 ≤ MAX_RETIRED) →
      lookupM st.markets q = some r → r.closedSnapshot = some s →
      ∀ n ∈ (run st inputs).2, n.id = q →
        (n.kind = NKind.nClosed ∨ n.kind = NKind.nResolved) → n.options = s := by
  intro inputs
  induction inputs with
  | nil => intro st r _ _ _ _ n hn; cases hn
  | cons p rest ih =>
    intro st r hs H hr hsnap n hn hid hkind
    have hnc : preCompactCount st p.1 p.2 ≤ MAX_RETIRED := H [] p rest rfl
    rw [run_cons] at hn
    rcases List.mem_append.mp hn with h1 | h2
    · exact tick_frozen_payload st p.1 p.2 q r s hs hr hsnap hne n h1 hid hkind
    · obtain ⟨r1, hr1, hle⟩ := tick_flagsLe st p.1 p.2 q r hs hnc hr
      exact ih (tick st p.1 p.2).1 r1 (tick_seeded_mono _ _ _ hs)
        (fun pre' p' suf' he => H (p :: pre') p' suf' (by rw [he, List.cons_append]))
        hr1 (hle.2.2.2.2 s hsnap) n h2 hid hkind

/-! ## Retired-implies-announced invariant (C10) -/

def retiredInv (ms : List (String × MarketRec)) : Prop :=
  ∀ p ∈ ms, p.2.retired = true → p.2.announcedResolved = true

theorem retiredInv_upsertM {ms : List (String × MarketRec)} {k : String}
    {v : MarketRec} (h : retiredInv ms)
    (hv : v.retired = true → v.announcedResolved = true) :
    retiredInv (upsertM ms k v) := by
  induction ms with
  | nil =>
    intro p hp
    rcases List.mem_singleton.mp hp with rfl
    exact hv
  | cons p0 rest ih =>
    intro p hp
    unfold upsertM at hp
    split at hp
    · rcases List.mem_cons.mp hp with rfl | hmem
      · exact hv
      · exact h p (List.mem_cons_of_mem p0 hmem)
    · rcases List.mem_cons.mp hp with rfl | hmem
      · exact h p (List.mem_cons_self _ _)
      · exact ih (fun p1 hp1 => h p1 (List.mem_cons_of_mem p0 hp1)) p hmem

theorem retiredInv_lookup {ms : List (String × MarketRec)} (h : retiredInv ms)
    {q : String} {r : MarketRec} (hr : lookupM ms q = some r) :
    r.retired = true → r.announcedResolved = true :=
  h (q, r) (mem_of_lookupM hr)

theorem retiredInv_processOne {i : TickIn} {dok : String → NKind → Bool}
    {acc : List (String × MarketRec) × List Notif} {m : EDetail}
    (h : retiredInv acc.1) : retiredInv (processOne i dok acc m).1 := by
  have hstep : ∀ p ∈ (processOne i dok acc m).1,
      p.2.retired = true → p.2.announcedResolved = true := by
    simp only [processOne]
    intro p hp
    refine retiredInv_upsertM h ?_ p hp
    set prev := (lookupM acc.1 m.key).getD (defaultRec m.url) with hprev
    intro hret
    simp only [procPair_fst_retired] at hret
    simp only [procPair_fst_announcedResolved]
    have hprevOK : prev.retired = true → prev.announcedResolved = true := by
      cases hl : lookupM acc.1 m.key with
      | none =>
        intro hc
        rw [hprev, hl] at hc
        cases hc
      | some r0 =>
        have : prev = r0 := by rw [hprev, hl]; rfl
        rw [this]
        exact retiredInv_lookup h hl
    rcases Bool.or_eq_true_iff.mp hret with h1 | h2
    · rw [hprevOK h1, Bool.true_or]
    · rw [h2, Bool.or_true]
  exact hstep

theorem retiredInv_bumpMissing {i : TickIn} {ms : List (String × MarketRec)}
    (h : retiredInv ms) : retiredInv (bumpMissing i ms) := by
  intro p hp
  unfold bumpMissing at hp
  rcases List.mem_map.mp hp with ⟨p0, hp0, rfl⟩
  simp only [bumpRec]
  exact h p0 hp0

theorem retiredInv_compact {ms : List (String × MarketRec)}
    (h : retiredInv ms) : retiredInv (compact ms) := by
  unfold compact
  split
  · intro p hp
    exact h p (List.mem_of_mem_filter hp)
  · exact h

theorem retiredInv_seedRec (i : TickIn) (m : EDetail) :
    (seedRec i m).retired = true → (seedRec i m).announcedResolved = true := by
  intro h
  simpa [seedRec] using (by simpa [seedRec] using h : m.status = Status.isResolved)

theorem retiredInv_tick {st : St} {i : TickIn} {dok : String → NKind → Bool}
    (h : retiredInv st.markets) : retiredInv (tick st i dok).1.markets := by
  simp only [tick]
  split
  · show retiredInv ((scrapePhase st i).foldl
      (fun ms m => upsertM ms m.key (seedRec i m)) st.markets)
    have : ∀ (results : List EDetail) (ms : List (String × MarketRec)),
        retiredInv ms →
        retiredInv (results.foldl (fun ms m => upsertM ms m.key (seedRec i m)) ms) := by
      intro results
      induction results with
      | nil => intro ms hm; exact hm
      | cons e rest ih =>
        intro ms hm
        rw [List.foldl_cons]
        exact ih _ (retiredInv_upsertM hm (retiredInv_seedRec i e))
    exact this _ _ h
  · apply retiredInv_compact
    show retiredInv ((scrapePhase st i).foldl (processOne i dok)
      (bumpMissing i st.markets, [])).1
    have : ∀ (results : List EDetail)
        (acc : List (String × MarketRec) × List Notif), retiredInv acc.1 →
        retiredInv (results.foldl (processOne i dok) acc).1 := by
      intro results
      induction results with
      | nil => intro acc hm; exact hm
      | cons e rest ih =>
        intro acc hm
        rw [List.foldl_cons]
        exact ih _ (retiredInv_processOne hm)
    exact this _ _ (retiredInv_bumpMissing h)

theorem retiredInv_run :
    ∀ (inputs : List (TickIn × (String → NKind → Bool))) (st : St),
      retiredInv st.markets → retiredInv (run st inputs).1.markets := by
  intro inputs
  induction inputs with
  | nil => intro st h; exact h
  | cons p rest ih =>
    intro st h
    rw [run_cons]
    exact ih (tick st p.1 p.2).1 (retiredInv_tick h)

/-! ## Winner-mapping lemmas (C7) -/

theorem mapWinnerToLabel_refines (raw : String) (opts : List Opt)
    (h : raw ≠ "") :
    mapWinnerToLabel (some raw) opts = some (specMapWinnerToLabel raw opts) := by
  simp only [mapWinnerToLabel, specMapWinnerToLabel]
  rw [if_neg h]
  cases hf : opts.find?
      (fun o => o.label != "" && strContains (upperStr (trimStr raw)) (upperStr o.label)) with
  | some o => simp [hf]
  | none =>
    simp only [hf]
    split_ifs <;> rfl

/-! ## Normalization lemmas (C8) -/

theorem inferPair_length (l : List Opt) : (inferPair l).length = l.length := by
  unfold inferPair
  rcases l with _ | ⟨a, _ | ⟨b, _ | _⟩⟩ <;> simp <;>
    cases a.pct <;> cases b.pct <;> simp

theorem inferPair_labels (l : List Opt) :
    (inferPair l).map Opt.label = l.map Opt.label := by
  unfold inferPair
  rcases l with _ | ⟨a, _ | ⟨b, _ | _⟩⟩ <;> simp <;>
    cases ha : a.pct <;> cases hb : b.pct <;> simp

theorem dedupDetailAux_inv :
    ∀ (l : List Opt) (acc : List (String × Opt)),
      ((acc.map Prod.fst).Nodup ∧ ∀ p ∈ acc, upperStr p.2.label = p.1) →
      ((dedupDetailAux l acc).map Prod.fst).Nodup ∧
        ∀ p ∈ dedupDetailAux l acc, upperStr p.2.label = p.1 := by
  intro l
  induction l with
  | nil => intro acc h; exact h
  | cons o rest ih =>
    intro acc h
    simp only [dedupDetailAux]
    by_cases hL : detailCleanLabel o.label = ""
    · rw [if_pos hL]; exact ih acc h
    · rw [if_neg hL]
      by_cases hB : bannedTest (upperStr (detailCleanLabel o.label)) = true
      · rw [if_pos hB]; exact ih acc h
      · rw [if_neg hB]
        by_cases hA : (acc.any fun q => q.1 == upperStr (detailCleanLabel o.label)) = true
        · rw [if_pos hA]
          cases hp : pctValOf o.pct with
          | none => exact ih acc h
          | some p =>
            apply ih
            constructor
            · have : (acc.map (fun q =>
                  if q.1 == upperStr (detailCleanLabel o.label) then
                    (upperStr (detailCleanLabel o.label), { q.2 with pct := some p })
                  else q)).map Prod.fst = acc.map Prod.fst := by
                rw [List.map_map]
                apply List.map_congr_left
                intro q _
                by_cases hq : q.1 = upperStr (detailCleanLabel o.label)
                · simp [hq]
                · simp [hq]
              rw [this]
              exact h.1
            · intro q hq
              rcases List.mem_map.mp hq with ⟨q0, hq0, rfl⟩
              by_cases he : q0.1 = upperStr (detailCleanLabel o.label)
              · simp only [he, beq_self_eq_true, if_true]
                rw [← he]
                exact h.2 q0 hq0
              · rw [if_neg (by simpa using he)]
                exact h.2 q0 hq0
        · rw [if_neg hA]
          apply ih
          constructor
          · rw [List.map_append, List.map_cons, List.map_nil]
            rw [List.nodup_append]
            refine ⟨h.1, List.nodup_singleton _, ?_⟩
            intro x hx
            simp only [List.mem_singleton]
            intro he
            apply hA
            rcases List.mem_map.mp hx with ⟨q0, hq0, rfl⟩
            rw [List.any_eq_true]
            exact ⟨q0, hq0, by simpa using he⟩
          · intro q hq
            rcases List.mem_append.mp hq with hq1 | hq2
            · exact h.2 q hq1
            · rcases List.mem_singleton.mp hq2 with rfl
              rfl

theorem dedupDetail_labels_nodup (l : List Opt) :
    ((dedupDetail l).map (fun o => upperStr o.label)).Nodup := by
  obtain ⟨h1, h2⟩ := dedupDetailAux_inv l [] ⟨List.nodup_nil, fun p hp => absurd hp (List.not_mem_nil p)⟩
  unfold dedupDetail
  have hmap : ((dedupDetailAux l []).map Prod.snd).map (fun o => upperStr o.label) =
      (dedupDetailAux l []).map Prod.fst := by
    rw [List.map_map]
    apply List.map_congr_left
    intro p hp
    exact h2 p hp
  have heq : (((dedupDetailAux l []).map Prod.snd).take 3).map
      (fun o => upperStr o.label) = ((dedupDetailAux l []).map Prod.fst).take 3 := by
    rw [List.map_take, hmap]
  rw [heq]
  exact (List.take_sublist 3 _).nodup h1

/-! ## Claim theorems -/

/-- C7 (amended): `mapWinnerToLabel` never throws (it is a total function)
and follows the spec's algorithm (a)-(d) for every **non-empty** raw winner
string: it returns exactly `specMapWinnerToLabel` of the raw string.  A
null or empty raw winner yields `null` (the code's `if (!winnerRaw)` guard
also catches the empty string, which is where the claim as stated fails).
The spec's three examples hold. -/
theorem C7_winner_mapping :
    (∀ raw opts, raw ≠ "" →
      mapWinnerToLabel (some raw) opts = some (specMapWinnerToLabel raw opts)) ∧
    (∀ opts, mapWinnerToLabel (some "") opts = none) ∧
    (∀ opts, mapWinnerToLabel none opts = none) ∧
    mapWinnerToLabel (some "YES")
      [⟨"Lakers", some 60⟩, ⟨"Celtics", some 40⟩] = some "Lakers" ∧
    mapWinnerToLabel (some "Glasgow Rangers")
      [⟨"Glasgow Rangers", none⟩] = some "Glasgow Rangers" ∧
    mapWinnerToLabel (some "invalid - no majority") [] = some "Invalid" := by
  refine ⟨mapWinnerToLabel_refines, fun opts => by simp [mapWinnerToLabel],
    fun opts => rfl, by decide, by decide, by decide⟩

/-- C7 counterexample: on the raw winner `""` the claim's algorithm, step
(d), returns the trimmed raw string `""`, but the code returns `null`
(`if (!winnerRaw) return null` is taken by the empty string). -/
theorem C7_winner_mapping_cex :
    mapWinnerToLabel (some "") [] = none ∧
      specMapWinnerToLabel "" [] = "" ∧
      mapWinnerToLabel (some "") [] ≠ some (specMapWinnerToLabel "" []) := by
  decide

theorem C7_winner_mapping_witness :
    mapWinnerToLabel (some "YES") [⟨"Lakers", some 60⟩] =
      some (specMapWinnerToLabel "YES" [⟨"Lakers", some 60⟩]) :=
  C7_winner_mapping.1 "YES" [⟨"Lakers", some 60⟩] (by decide)

/-- C8: the detail-scrape option normalization (lines 502-519) keeps at
most 3 options; when exactly two options remain after deduplication and
exactly one has a known pct, the other's pct is inferred as `100 - pct`
clamped to `[0, 100]`; when both pcts are null they both stay null; the
surviving labels are pairwise distinct case-insensitively (deduplication is
by trimmed, noise-stripped, upper-cased label); and the spec's two
examples hold. -/
theorem C8_option_normalization :
    (∀ l, (normalizeDetailOptions l).length ≤ 3) ∧
    (∀ l a b p, dedupDetail l = [a, b] → a.pct = some p → b.pct = none →
      normalizeDetailOptions l = [a, { b with pct := some (clamp0100 (100 - p)) }]) ∧
    (∀ l a b p, dedupDetail l = [a, b] → a.pct = none → b.pct = some p →
      normalizeDetailOptions l = [{ a with pct := some (clamp0100 (100 - p)) }, b]) ∧
    (∀ l a b, dedupDetail l = [a, b] → a.pct = none → b.pct = none →
      normalizeDetailOptions l = [a, b]) ∧
    (∀ l, ((normalizeDetailOptions l).map (fun o => upperStr o.label)).Nodup) ∧
    normalizeDetailOptions [⟨"A", some 60⟩, ⟨"B", none⟩] =
      [⟨"A", some 60⟩, ⟨"B", some 40⟩] ∧
    normalizeDetailOptions [⟨"A", none⟩, ⟨"B", none⟩] =
      [⟨"A", none⟩, ⟨"B", none⟩] := by
  refine ⟨?_, ?_, ?_, ?_, ?_, by decide, by decide⟩
  · intro l
    unfold normalizeDetailOptions
    rw [inferPair_length]
    unfold dedupDetail
    exact List.length_take_le 3 _
  · intro l a b p h ha hb
    unfold normalizeDetailOptions
    rw [h]
    unfold inferPair
    simp [ha, hb]
  · intro l a b p h ha hb
    unfold normalizeDetailOptions
    rw [h]
    unfold inferPair
    simp [ha, hb]
  · intro l a b h ha hb
    unfold normalizeDetailOptions
    rw [h]
    unfold inferPair
    simp [ha, hb]
  · intro l
    have h := dedupDetail_labels_nodup l
    unfold normalizeDetailOptions
    have heq : (inferPair (dedupDetail l)).map (fun o => upperStr o.label) =
        (dedupDetail l).map (fun o => upperStr o.label) := by
      rw [show (fun (o : Opt) => upperStr o.label) =
        (fun s => upperStr s) ∘ Opt.label from rfl]
      rw [← List.map_map, inferPair_labels, List.map_map]
    rw [heq]
    exact h

/-! ### Concrete scenario inputs (counterexamples and witnesses) -/

/-- A minimal list card for a market id. -/
def trendCard (mid : String) : Card := ⟨some mid, "u", "", none, "", []⟩

/-- An open detail snapshot for a market id. -/
def openSnap (mid : String) : Snapshot :=
  ⟨some mid, "T", "u", Status.isOpen, [], none, "", none⟩

/-- One tick's inputs: empty active list; the market is in trending iff `b`;
every detail scrape succeeds with an open snapshot. -/
def trendTick (mid : String) (b : Bool) : TickIn :=
  ⟨"https://auracle.fi", [], if b then [trendCard mid] else [],
    fun _ => some (openSnap mid)⟩

/-- One tick's inputs with the market in the active list. -/
def activeTick (mid : String) : TickIn :=
  ⟨"https://auracle.fi", [trendCard mid], [], fun _ => some (openSnap mid)⟩

/-- Every notifier delivery succeeds. -/
def allOk : String → NKind → Bool := fun _ _ => true

/-- A record already past `closed`. -/
def closedRecX : MarketRec :=
  { announcedOpen := true, announcedClosed := true, announcedResolved := false,
    lastStatus := some Status.isClosed, url := "u", missingCount := 0,
    wasTrending := false, retired := false, lastSeen := none,
    closedSnapshot := some [⟨"A", some 60⟩] }

/-- `closedRecX` after one tick whose snapshot reports `open` again. -/
def closedRecX' : MarketRec :=
  { announcedOpen := true, announcedClosed := true, announcedResolved := false,
    lastStatus := some Status.isOpen, url := "u", missingCount := 1,
    wasTrending := false, retired := false,
    lastSeen := some ⟨"T", "", "", []⟩,
    closedSnapshot := some [⟨"A", some 60⟩] }

/-- Discharge the no-compaction side condition for a one-tick run. -/
theorem hnc_singleton (st : St) (p0 : TickIn × (String → NKind → Bool))
    (h : preCompactCount st p0.1 p0.2 ≤ MAX_RETIRED) :
    ∀ pre p suf, [p0] = pre ++ p :: suf →
      preCompactCount (run st pre).1 p.1 p.2 ≤ MAX_RETIRED := by
  intro pre p suf hh
  cases pre with
  | nil =>
    simp only [List.nil_append, List.cons.injEq] at hh
    rw [← hh.1]
    exact h
  | cons a l =>
    simp only [List.cons_append, List.cons.injEq] at hh
    exact absurd hh.2 (by simp)

theorem C8_option_normalization_witness :
    dedupDetail [⟨"A", some 60⟩, ⟨"B", none⟩] =
      [⟨"A", some 60⟩, ⟨"B", none⟩] ∧
    normalizeDetailOptions [⟨"A", some 60⟩, ⟨"B", none⟩] =
      [⟨"A", some 60⟩, { label := "B", pct := some (clamp0100 (100 - 60)) }] :=
  ⟨by decide,
    C8_option_normalization.2.1 [⟨"A", some 60⟩, ⟨"B", none⟩]
      ⟨"A", some 60⟩ ⟨"B", none⟩ 60 (by decide) rfl rfl⟩

/-- C1 (amended): after seeding, for the flag-guarded transition kinds
(open, closed, resolved) the notifier is called at most once per
(market, kind) across any run, provided the retired-record cleanup never
triggers (each tick's pre-cleanup record count stays at or below 2000, so
no retired record is deleted and later re-created).  Trending-entry
notifications carry no flag: they are edge-triggered on trending
membership and can fire again each time the market re-enters trending (see
the counterexample). -/
theorem C1_at_most_once (st : St)
    (inputs : List (TickIn × (String → NKind → Bool))) (q : String) (k : NKind)
    (hs : st.seeded = true) (hk : k ≠ NKind.nTrending)
    (hnc : ∀ pre p suf, inputs = pre ++ p :: suf →
      preCompactCount (run st pre).1 p.1 p.2 ≤ MAX_RETIRED) :
    countN (run st inputs).2 q k ≤ 1 :=
  (run_count q k hk inputs st hs hnc).1

/-- C1 counterexample: a market in trending on ticks 1 and 3 but absent on
tick 2 receives two trending-entry notifications, so `notify` is called
twice for the same (market, trending-entry) pair. -/
theorem C1_at_most_once_cex :
    countN (run ⟨[], true⟩
      [(trendTick "X" true, allOk), (trendTick "X" false, allOk),
        (trendTick "X" true, allOk)]).2 "X" NKind.nTrending = 2 := by
  decide

theorem C1_at_most_once_witness :
    countN (run ⟨[], true⟩ [(trendTick "X" true, allOk)]).2 "X" NKind.nOpen ≤ 1 :=
  C1_at_most_once ⟨[], true⟩ [(trendTick "X" true, allOk)] "X" NKind.nOpen rfl
    (by decide) (hnc_singleton _ _ (by decide))

/-- C3 (amended): `lastStatus` is set to the just-observed scraped status
on every tick, so it can revert from `closed` to `open` when a later flaky
scrape reports `open` (see the counterexample).  What is monotone instead:
once a record's `announcedOpen`/`announcedClosed`/`announcedResolved` flag,
its `retired` bit, or its frozen `closedSnapshot` is set, it stays set for
the rest of any run in which the record survives (no cleanup deletion). -/
theorem C3_monotone_flags (inputs : List (TickIn × (String → NKind → Bool)))
    (st : St) (q : String) (r r' : MarketRec)
    (hs : st.seeded = true)
    (hnc : ∀ pre p suf, inputs = pre ++ p :: suf →
      preCompactCount (run st pre).1 p.1 p.2 ≤ MAX_RETIRED)
    (hr : lookupM st.markets q = some r)
    (hr' : lookupM (run st inputs).1.markets q = some r') :
    flagsLe r r' := by
  obtain ⟨r'', hr'', hle⟩ := run_flagsLe inputs st q r hs hnc hr
  obtain rfl : r'' = r' := Option.some.inj (hr''.symm.trans hr')
  exact hle

/-- C3 counterexample: a ledger record whose `lastStatus` is `closed`
reverts to `open` on the next tick when the detail scrape reports `open`
(line 884 assigns the observed status unconditionally). -/
theorem C3_monotone_flags_cex :
    closedRecX.lastStatus = some Status.isClosed ∧
    ((lookupM (tick ⟨[("X", closedRecX)], true⟩ (trendTick "X" false)
        allOk).1.markets "X").map MarketRec.lastStatus) =
      some (some Status.isOpen) := by
  decide

theorem C3_monotone_flags_witness : flagsLe closedRecX closedRecX' :=
  C3_monotone_flags [(trendTick "X" false, allOk)] ⟨[("X", closedRecX)], true⟩
    "X" closedRecX closedRecX' rfl (hnc_singleton _ _ (by decide))
    (by decide) (by decide)

/-- In the tick that captures the `closedSnapshot` (previous record had
none), the closed announcement emitted by the same `processOne` carries the
just-captured list, and no resolved announcement can fire (the status is
`closed`). -/
theorem newNotifs_capture_payload (i : TickIn) (dok : String → NKind → Bool)
    (m : EDetail) (prev : MarketRec)
    (hnone : prev.closedSnapshot = none) {s' : List Opt}
    (hset : (procPair i dok m prev []).1.closedSnapshot = some s')
    (hne : s' ≠ []) :
    ∀ n ∈ newNotifs i dok m prev,
      (n.kind = NKind.nClosed ∨ n.kind = NKind.nResolved) → n.options = s' := by
  intro n hn hk
  have hn2 : (stepCapture m prev
      (stepLastSeen i m prev { prev with url := m.url })).closedSnapshot =
      some s' := by
    have := hset
    unfold procPair at this
    simp only [stepTrending_fst, stepResolved_fst_closedSnapshot,
      stepClosed_fst_closedSnapshot, stepOpen_fst_closedSnapshot] at this
    exact this
  have hst : m.status = Status.isClosed := by
    unfold stepCapture at hn2
    split at hn2
    · rename_i hg
      exact hg.1
    · rw [stepLastSeen_closedSnapshot, hnone] at hn2
      cases hn2
  unfold newNotifs procPair at hn
  rw [stepTrending_snd, stepResolved_snd, stepClosed_snd, stepOpen_snd] at hn
  simp only [List.nil_append, List.mem_append] at hn
  rcases hn with ((hn1 | hn2') | hn3) | hn4
  · split at hn1
    · rcases List.mem_singleton.mp hn1 with rfl
      rcases hk with h | h <;> simp [openNotif] at h
    · cases hn1
  · split at hn2'
    · rcases List.mem_singleton.mp hn2' with rfl
      show (closedNotif dok m prev _).options = s'
      have hA3 : (stepOpen i dok m prev
          (stepCapture m prev (stepLastSeen i m prev { prev with url := m.url }),
            ([] : List Notif))).1.closedSnapshot = some s' := by
        rw [stepOpen_fst_closedSnapshot]
        exact hn2
      simp only [closedNotif, frozenOrFallback, hA3]
      simp [hne]
    · cases hn2'
  · split at hn3
    · rename_i hg
      exact absurd (hst.symm.trans hg.1) (by decide)
    · cases hn3
  · split at hn4
    · rcases List.mem_singleton.mp hn4 with rfl
      rcases hk with h | h <;> simp [trendingNotif] at h
    · cases hn4

/-- Same-tick payload: whenever the record stored by `processOne` carries a
non-empty `closedSnapshot`, every closed/resolved notification this very
iteration emitted uses exactly that list. -/
theorem processOne_same_tick_payload (i : TickIn) (dok : String → NKind → Bool)
    (acc : List (String × MarketRec) × List Notif) (m : EDetail)
    (r' : MarketRec)
    (hr' : lookupM (processOne i dok acc m).1 m.key = some r')
    {s' : List Opt} (hset : r'.closedSnapshot = some s') (hne : s' ≠ []) :
    ∀ n ∈ (processOne i dok acc m).2.drop acc.2.length,
      (n.kind = NKind.nClosed ∨ n.kind = NKind.nResolved) → n.options = s' := by
  have hdrop : (processOne i dok acc m).2.drop acc.2.length =
      newNotifs i dok m ((lookupM acc.1 m.key).getD (defaultRec m.url)) := by
    rw [processOne_snd_eq, List.drop_left]
  rw [hdrop]
  rw [processOne_fst_rec] at hr'
  obtain rfl := (Option.some.inj hr').symm
  rw [show (procPair i dok m ((lookupM acc.1 m.key).getD (defaultRec m.url))
      acc.2).1 = (procPair i dok m ((lookupM acc.1 m.key).getD (defaultRec m.url))
      []).1 from by rw [procPair_split]] at hset
  simp only at hset
  cases hprev : ((lookupM acc.1 m.key).getD (defaultRec m.url)).closedSnapshot with
  | some s0 =>
    have hfroz := procPair_fst_closedSnapshot_frozen i dok m
      ((lookupM acc.1 m.key).getD (defaultRec m.url)) hprev ([] : List Notif)
    rw [hfroz] at hset
    obtain rfl : s0 = s' := Option.some.inj hset
    exact newNotifs_frozen_payload i dok m _ hprev hne
  | none =>
    exact newNotifs_capture_payload i dok m _ hprev hset hne

/-- C4: once a market's `closedSnapshot` is set it is frozen — no later
tick changes it while the record exists — and the closed and resolved
announcements take their option list from that frozen snapshot whenever it
is non-empty: every later closed/resolved notification for the market
carries exactly the frozen list, and already in the capturing iteration
itself the stored snapshot and the emitted payload agree. -/
theorem C4_closed_snapshot_frozen (st : St)
    (inputs : List (TickIn × (String → NKind → Bool))) (q : String)
    (s : List Opt) (r : MarketRec)
    (hs : st.seeded = true)
    (hnc : ∀ pre p suf, inputs = pre ++ p :: suf →
      preCompactCount (run st pre).1 p.1 p.2 ≤ MAX_RETIRED)
    (hr : lookupM st.markets q = some r) (hsnap : r.closedSnapshot = some s) :
    (∀ r', lookupM (run st inputs).1.markets q = some r' →
      r'.closedSnapshot = some s) ∧
    (s ≠ [] → ∀ n ∈ (run st inputs).2, n.id = q →
      (n.kind = NKind.nClosed ∨ n.kind = NKind.nResolved) → n.options = s) ∧
    (∀ (i : TickIn) (dok : String → NKind → Bool)
      (acc : List (String × MarketRec) × List Notif) (m : EDetail)
      (r' : MarketRec) (s' : List Opt),
      lookupM (processOne i dok acc m).1 m.key = some r' →
      r'.closedSnapshot = some s' → s' ≠ [] →
      ∀ n ∈ (processOne i dok acc m).2.drop acc.2.length,
        (n.kind = NKind.nClosed ∨ n.kind = NKind.nResolved) → n.options = s') := by
  refine ⟨?_, ?_, ?_⟩
  · intro r' hr'
    obtain ⟨r'', hr'', hle⟩ := run_flagsLe inputs st q r hs hnc hr
    obtain rfl : r'' = r' := Option.some.inj (hr''.symm.trans hr')
    exact hle.2.2.2.2 s hsnap
  · intro hne n hn hid hk
    exact run_frozen_payload q s hne inputs st r hs hnc hr hsnap n hn hid hk
  · intro i dok acc m r' s' hr' hset hne
    exact processOne_same_tick_payload i dok acc m r' hr' hset hne

theorem C4_closed_snapshot_frozen_witness :
    (∀ r', lookupM (run ⟨[("X", closedRecX)], true⟩
        [(trendTick "X" false, allOk)]).1.markets "X" = some r' →
      r'.closedSnapshot = some [⟨"A", some 60⟩]) ∧
    (∀ n ∈ (run ⟨[("X", closedRecX)], true⟩
        [(trendTick "X" false, allOk)]).2, n.id = "X" →
      (n.kind = NKind.nClosed ∨ n.kind = NKind.nResolved) →
      n.options = [⟨"A", some 60⟩]) :=
  ⟨(C4_closed_snapshot_frozen ⟨[("X", closedRecX)], true⟩
      [(trendTick "X" false, allOk)] "X" [⟨"A", some 60⟩] closedRecX rfl
      (hnc_singleton _ _ (by decide)) (by decide) rfl).1,
    (C4_closed_snapshot_frozen ⟨[("X", closedRecX)], true⟩
      [(trendTick "X" false, allOk)] "X" [⟨"A", some 60⟩] closedRecX rfl
      (hnc_singleton _ _ (by decide)) (by decide) rfl).2.1 (by decide)⟩

/-! ### Helpers for C10, C5, C2 -/

theorem enrich_key (i : TickIn) (d : Snapshot) (k : String) :
    (enrich i d k).key = k := by
  unfold enrich
  split <;> rfl

/-- Every scraped result's key is the id some oracle snapshot reported. -/
theorem scrapePhase_oracle_id (st : St) (i : TickIn) :
    ∀ e ∈ scrapePhase st i,
      ∃ url d, i.oracle url = some d ∧ d.id = some e.key := by
  intro e he
  unfold scrapePhase at he
  rcases List.mem_filterMap.mp he with ⟨id0, _, hmap⟩
  cases ho : i.oracle (urlFor st i id0) with
  | none => rw [ho] at hmap; cases hmap
  | some d =>
    rw [ho] at hmap
    dsimp only at hmap
    cases hd : d.id with
    | none => rw [hd] at hmap; cases hmap
    | some k =>
      rw [hd] at hmap
      dsimp only at hmap
      by_cases hk : k = ""
      · rw [if_pos hk] at hmap; cases hmap
      · rw [if_neg hk] at hmap
        obtain rfl := Option.some.inj hmap
        exact ⟨urlFor st i id0, d, ho, by rw [hd, enrich_key]⟩

/-- Entries whose key differs leave a market's record and notifications
untouched. -/
theorem fold_lookup_ne_all (i : TickIn) (dok : String → NKind → Bool)
    (q : String) :
    ∀ (results : List EDetail) (acc : List (String × MarketRec) × List Notif),
      (∀ e ∈ results, e.key ≠ q) →
      lookupM (List.foldl (processOne i dok) acc results).1 q = lookupM acc.1 q ∧
      ∀ k, countN (List.foldl (processOne i dok) acc results).2 q k =
        countN acc.2 q k := by
  intro results
  induction results with
  | nil => intro acc _; exact ⟨rfl, fun _ => rfl⟩
  | cons m rest ih =>
    intro acc h
    rw [List.foldl_cons]
    have hm : m.key ≠ q := h m (List.mem_cons_self _ _)
    have hq : q ≠ m.key := fun he => hm he.symm
    obtain ⟨ihA, ihB⟩ := ih (processOne i dok acc m)
      (fun e he => h e (List.mem_cons_of_mem _ he))
    refine ⟨?_, fun k => ?_⟩
    · rw [ihA, processOne_lookup_ne i dok m acc hq]
    · rw [ihB k, processOne_snd_eq, countN_append,
        countN_newNotifs_ne _ _ _ _ hq, Nat.add_zero]

/-- The last list entry carrying a given key (JS object assignment in a
loop keeps the last write). -/
def lastKeyed : List EDetail → String → Option EDetail
  | [], _ => none
  | e :: rest, q =>
    match lastKeyed rest q with
    | some x => some x
    | none => if e.key = q then some e else none

theorem lastKeyed_cons (e : EDetail) (rest : List EDetail) (q : String) :
    lastKeyed (e :: rest) q =
      match lastKeyed rest q with
      | some x => some x
      | none => if e.key = q then some e else none := rfl

theorem lastKeyed_key :
    ∀ (results : List EDetail) (q : String) (e : EDetail),
      lastKeyed results q = some e → e.key = q := by
  intro results
  induction results with
  | nil => intro q e h; cases h
  | cons x rest ih =>
    intro q e h
    rw [lastKeyed_cons] at h
    cases hl : lastKeyed rest q with
    | some y =>
      rw [hl] at h
      dsimp only at h
      obtain rfl := Option.some.inj h
      exact ih q y hl
    | none =>
      rw [hl] at h
      dsimp only at h
      split at h
      · rename_i hx
        obtain rfl := Option.some.inj h
        exact hx
      · cases h

theorem lastKeyed_of_mem :
    ∀ (results : List EDetail) (e : EDetail), e ∈ results →
      ∃ e', lastKeyed results e.key = some e' := by
  intro results
  induction results with
  | nil => intro e he; cases he
  | cons x rest ih =>
    intro e he
    rw [lastKeyed_cons]
    cases hl : lastKeyed rest e.key with
    | some y => exact ⟨y, rfl⟩
    | none =>
      rcases List.mem_cons.mp he with heq | hmem
      · refine ⟨x, ?_⟩
        dsimp only
        rw [if_pos (by rw [heq])]
      · rcases ih e hmem with ⟨e', he'⟩
        rw [hl] at he'
        cases he'

theorem lastKeyed_none :
    ∀ (results : List EDetail) (q : String), (∀ e ∈ results, e.key ≠ q) →
      lastKeyed results q = none := by
  intro results
  induction results with
  | nil => intro q _; rfl
  | cons x rest ih =>
    intro q h
    rw [lastKeyed_cons, ih q (fun e he => h e (List.mem_cons_of_mem _ he))]
    dsimp only
    rw [if_neg (h x (List.mem_cons_self _ _))]

/-- Lookup after the seed fold: the last snapshot with the key wins, other
keys are untouched. -/
theorem seedfold_lookup (i : TickIn) :
    ∀ (results : List EDetail) (ms : List (String × MarketRec)) (q : String),
      lookupM (results.foldl (fun ms m => upsertM ms m.key (seedRec i m)) ms) q =
        match lastKeyed results q with
        | some e => some (seedRec i e)
        | none => lookupM ms q := by
  intro results
  induction results with
  | nil => intro ms q; rfl
  | cons e rest ih =>
    intro ms q
    rw [List.foldl_cons, ih, lastKeyed_cons]
    cases hl : lastKeyed rest q with
    | some x => rfl
    | none =>
      dsimp only
      rw [lookupM_upsertM]
      by_cases hq : q = e.key
      · rw [if_pos hq, if_pos hq.symm]
      · rw [if_neg hq, if_neg (fun h => hq h.symm)]

/-- C10 counterexample input: the active list holds market `U`, but the
detail scrape for it reports retired market `X`'s id. -/
def aliasTick : TickIn :=
  ⟨"https://auracle.fi", [⟨some "U", "u2", "", none, "", []⟩], [],
    fun _ => some (openSnap "X")⟩

/-- A resolved, retired, fully announced record. -/
def retiredRecX : MarketRec :=
  { announcedOpen := true, announcedClosed := true, announcedResolved := true,
    lastStatus := some Status.isResolved, url := "u", missingCount := 0,
    wasTrending := false, retired := true, lastSeen := none,
    closedSnapshot := some [⟨"A", some 60⟩] }

/-- C10 (amended): (1) in every state reachable from the initial empty
ledger, a retired record has `announcedResolved = true` — unconditionally.
(2) A retired record is excluded from the watch-set, so no field other
than `missingCount` changes on a later tick — provided no snapshot the
oracle returns carries a retired record's id (the detail scrape extracts
the id from the rendered page, so it can in principle return a different
market's id than the one fetched; see the counterexample). -/
theorem C10_retired_records :
    (∀ inputs : List (TickIn × (String → NKind → Bool)),
      retiredInv (run ⟨[], false⟩ inputs).1.markets) ∧
    (∀ (st : St) (i : TickIn) (dok : String → NKind → Bool) (q : String)
      (r : MarketRec),
      (keysOf st.markets).Nodup →
      (∀ url sn kk, i.oracle url = some sn → sn.id = some kk →
        ∀ r0, lookupM st.markets kk = some r0 → r0.retired = false) →
      lookupM st.markets q = some r → r.retired = true →
      ∀ r', lookupM (tick st i dok).1.markets q = some r' →
        r' = { r with missingCount := r'.missingCount }) := by
  constructor
  · intro inputs
    exact retiredInv_run inputs ⟨[], false⟩ (fun p hp => absurd hp (by simp))
  · intro st i dok q r hN horacle hr hret r' hr'
    have hkeys : ∀ e ∈ scrapePhase st i, e.key ≠ q := by
      intro e he heq
      obtain ⟨url, d, ho, hid⟩ := scrapePhase_oracle_id st i e he
      have := horacle url d e.key ho hid r (heq ▸ hr)
      rw [hret] at this
      cases this
    simp only [tick] at hr'
    split at hr'
    · rw [show (seedPhase st i (scrapePhase st i), ([] : List Notif)).1.markets =
          (scrapePhase st i).foldl (fun ms m => upsertM ms m.key (seedRec i m))
            st.markets from rfl] at hr'
      rw [seedfold_lookup, lastKeyed_none _ _ hkeys] at hr'
      simp only at hr'
      obtain rfl : r = r' := Option.some.inj (hr.symm.trans hr')
      cases r
      rfl
    · have hNtp : (keysOf (transitionsPhase i dok (bumpMissing i st.markets)
          (scrapePhase st i)).1).Nodup := by
        apply fold_keys_nodup
        rw [show keysOf (bumpMissing i st.markets) = keysOf st.markets from
          keysOf_bumpMissing i st.markets]
        exact hN
      have hcomp := lookupM_compact hNtp hr'
      have hfold := (fold_lookup_ne_all i dok q (scrapePhase st i)
        (bumpMissing i st.markets, []) hkeys).1
      rw [show (transitionsPhase i dok (bumpMissing i st.markets)
          (scrapePhase st i)).1 = ((scrapePhase st i).foldl
            (processOne i dok) (bumpMissing i st.markets, [])).1 from rfl] at hcomp
      rw [hfold] at hcomp
      rw [show lookupM (bumpMissing i st.markets, ([] : List Notif)).1 q =
        (lookupM st.markets q).map (bumpRec i q) from lookupM_bumpMissing i _ q,
        hr] at hcomp
      obtain rfl : bumpRec i q r = r' := Option.some.inj hcomp
      rfl

/-- C10 counterexample: with market `U` active and the oracle answering
every URL with a snapshot whose id is the retired market `X`, the retired
record's `lastStatus` (and `lastSeen`) change on the next tick. -/
theorem C10_retired_records_cex :
    retiredRecX.retired = true ∧
    retiredRecX.lastStatus = some Status.isResolved ∧
    ((lookupM (tick ⟨[("X", retiredRecX)], true⟩ aliasTick allOk).1.markets
      "X").map MarketRec.lastStatus) = some (some Status.isOpen) := by
  decide

/-- C2 (amended): on the first tick ever (`seeded = false`) that produces
at least one snapshot, zero notifier calls occur; the seeded flag becomes
true and the returned (persisted) ledger holds a record for every snapshot
(last write per id wins), whose flags are: `announcedClosed` iff the
observed status is closed, `announcedResolved` iff resolved, and
`announcedOpen` iff the observed status is open **and** the id is in this
tick's active list.  The claim's blanket "flag corresponding to the
currently-observed status pre-set to true" fails for a market observed
open that is not in the active list (see the counterexample). -/
theorem C2_cold_start (st : St) (i : TickIn) (dok : String → NKind → Bool)
    (hs : st.seeded = false) (hr : scrapePhase st i ≠ []) :
    (tick st i dok).2 = [] ∧
    (tick st i dok).1.seeded = true ∧
    (∀ e ∈ scrapePhase st i,
      ∃ e', lastKeyed (scrapePhase st i) e.key = some e') ∧
    (∀ q e, lastKeyed (scrapePhase st i) q = some e →
      lookupM (tick st i dok).1.markets q = some (seedRec i e) ∧
      (seedRec i e).announcedClosed = decide (e.status = Status.isClosed) ∧
      (seedRec i e).announcedResolved = decide (e.status = Status.isResolved) ∧
      (seedRec i e).announcedOpen =
        (decide (e.status = Status.isOpen) &&
          (cardIds i.active).contains e.key) ∧
      (seedRec i e).lastStatus = some e.status) := by
  have htick : tick st i dok = (seedPhase st i (scrapePhase st i), []) := by
    simp only [tick]
    rw [if_pos ⟨hs, hr⟩]
  rw [htick]
  refine ⟨rfl, rfl, fun e he => lastKeyed_of_mem _ e he, fun q e hq => ?_⟩
  refine ⟨?_, rfl, rfl, rfl, rfl⟩
  show lookupM ((scrapePhase st i).foldl
    (fun ms m => upsertM ms m.key (seedRec i m)) st.markets) q = _
  rw [seedfold_lookup, hq]

/-- C2 counterexample: on a first tick whose only market is observed
`open` but appears only in the trending list, the seeded record has
`announcedOpen = false`, although the flag corresponding to the observed
status (`open`) was claimed to be pre-set to true. -/
theorem C2_cold_start_cex :
    (scrapePhase ⟨[], false⟩ (trendTick "X" true)).map EDetail.status =
      [Status.isOpen] ∧
    (tick ⟨[], false⟩ (trendTick "X" true) allOk).2 = [] ∧
    ((lookupM (tick ⟨[], false⟩ (trendTick "X" true) allOk).1.markets
      "X").map MarketRec.announcedOpen) = some false := by
  decide

theorem C2_cold_start_witness :
    (tick ⟨[], false⟩ (activeTick "X") allOk).2 = [] ∧
    (tick ⟨[], false⟩ (activeTick "X") allOk).1.seeded = true :=
  ⟨(C2_cold_start ⟨[], false⟩ (activeTick "X") allOk rfl (by decide)).1,
    (C2_cold_start ⟨[], false⟩ (activeTick "X") allOk rfl (by decide)).2.1⟩

/-! ### Delivery-outcome independence (C9) -/

/-- Erase the delivery outcome from a notification record. -/
def undeliv (n : Notif) : Notif := { n with delivered := true }

theorem procPair_fst_dok (i : TickIn) (d1 d2 : String → NKind → Bool)
    (m : EDetail) (prev : MarketRec) (ns1 ns2 : List Notif) :
    (procPair i d1 m prev ns1).1 = (procPair i d2 m prev ns2).1 := by
  unfold procPair
  by_cases hO : openGuard i m prev <;> by_cases hC : closedGuard m prev <;>
    by_cases hR : resolvedGuard m prev <;> by_cases hT : trendingGuard i m prev <;>
    simp [stepOpen, stepClosed, stepResolved, stepTrending, hO, hC, hR, hT]

theorem newNotifs_dok (i : TickIn) (d1 d2 : String → NKind → Bool)
    (m : EDetail) (prev : MarketRec) :
    (newNotifs i d1 m prev).map undeliv = (newNotifs i d2 m prev).map undeliv := by
  unfold newNotifs procPair
  by_cases hO : openGuard i m prev <;> by_cases hC : closedGuard m prev <;>
    by_cases hR : resolvedGuard m prev <;> by_cases hT : trendingGuard i m prev <;>
    simp [stepOpen, stepClosed, stepResolved, stepTrending, hO, hC, hR, hT,
      undeliv, openNotif, closedNotif, resolvedNotif, trendingNotif]

theorem processOne_dok (i : TickIn) (d1 d2 : String → NKind → Bool)
    (m : EDetail) (acc1 acc2 : List (String × MarketRec) × List Notif)
    (hm : acc1.1 = acc2.1) (hn : acc1.2.map undeliv = acc2.2.map undeliv) :
    (processOne i d1 acc1 m).1 = (processOne i d2 acc2 m).1 ∧
    (processOne i d1 acc1 m).2.map undeliv =
      (processOne i d2 acc2 m).2.map undeliv := by
  constructor
  · simp only [processOne]
    rw [hm, procPair_fst_dok i d1 d2 m _ acc1.2 acc2.2]
  · rw [processOne_snd_eq, processOne_snd_eq, List.map_append, List.map_append,
      hn, hm, newNotifs_dok i d1 d2]

theorem fold_dok (i : TickIn) (d1 d2 : String → NKind → Bool) :
    ∀ (results : List EDetail)
      (acc1 acc2 : List (String × MarketRec) × List Notif),
      acc1.1 = acc2.1 → acc1.2.map undeliv = acc2.2.map undeliv →
      (List.foldl (processOne i d1) acc1 results).1 =
        (List.foldl (processOne i d2) acc2 results).1 ∧
      (List.foldl (processOne i d1) acc1 results).2.map undeliv =
        (List.foldl (processOne i d2) acc2 results).2.map undeliv := by
  intro results
  induction results with
  | nil => intro acc1 acc2 hm hn; exact ⟨hm, hn⟩
  | cons m rest ih =>
    intro acc1 acc2 hm hn
    rw [List.foldl_cons, List.foldl_cons]
    obtain ⟨h1, h2⟩ := processOne_dok i d1 d2 m acc1 acc2 hm hn
    exact ih _ _ h1 h2

theorem tick_dok (st : St) (i : TickIn) (d1 d2 : String → NKind → Bool) :
    (tick st i d1).1 = (tick st i d2).1 ∧
    (tick st i d1).2.map undeliv = (tick st i d2).2.map undeliv := by
  simp only [tick]
  by_cases hcase : st.seeded = false ∧ scrapePhase st i ≠ []
  · rw [if_pos hcase, if_pos hcase]
    exact ⟨rfl, rfl⟩
  · rw [if_neg hcase, if_neg hcase]
    obtain ⟨hA, hB⟩ := fold_dok i d1 d2 (scrapePhase st i)
      (bumpMissing i st.markets, []) (bumpMissing i st.markets, []) rfl rfl
    constructor
    · show (⟨compact (transitionsPhase i d1 (bumpMissing i st.markets)
        (scrapePhase st i)).1, st.seeded⟩ : St) = _
      rw [show (transitionsPhase i d1 (bumpMissing i st.markets)
        (scrapePhase st i)).1 = (transitionsPhase i d2 (bumpMissing i st.markets)
        (scrapePhase st i)).1 from hA]
    · exact hB

theorem flagTrue_mono_processOne (i : TickIn) (dok : String → NKind → Bool)
    (acc : List (String × MarketRec) × List Notif) (m : EDetail)
    (q : String) (k : NKind) (hk : k ≠ NKind.nTrending)
    (h : flagTrue acc.1 q k) : flagTrue (processOne i dok acc m).1 q k :=
  (fold_flag_keep i dok q k hk [m] acc h).1

theorem countN_pos_of_mem {ns : List Notif} {n : Notif} {q : String}
    {k : NKind} (hn : n ∈ ns) (hid : n.id = q) (hkind : n.kind = k) :
    1 ≤ countN ns q k := by
  unfold countN
  have hmem : n ∈ ns.filter (fun n => n.id == q && n.kind == k) :=
    List.mem_filter.mpr ⟨hn, by simp [hid, hkind]⟩
  exact List.length_pos.mpr (List.ne_nil_of_mem hmem)

theorem fold_notif_flag (i : TickIn) (dok : String → NKind → Bool) :
    ∀ (results : List EDetail)
      (acc : List (String × MarketRec) × List Notif),
      (∀ n ∈ acc.2, n.kind ≠ NKind.nTrending → flagTrue acc.1 n.id n.kind) →
      ∀ n ∈ (List.foldl (processOne i dok) acc results).2,
        n.kind ≠ NKind.nTrending →
        flagTrue (List.foldl (processOne i dok) acc results).1 n.id n.kind := by
  intro results
  induction results with
  | nil => intro acc h; exact h
  | cons m rest ih =>
    intro acc h
    rw [List.foldl_cons]
    apply ih
    intro n hn hkt
    rw [processOne_snd_eq, List.mem_append] at hn
    rcases hn with hold | hnew
    · exact flagTrue_mono_processOne i dok acc m _ _ hkt (h n hold hkt)
    · have hid := newNotifs_ids i dok m _ n hnew
      have hpos := countN_pos_of_mem hnew hid rfl
      rw [countN_newNotifs_k] at hpos
      have hg : guardK i m ((lookupM acc.1 m.key).getD (defaultRec m.url))
          n.kind := by
        by_contra hng
        rw [if_neg hng] at hpos
        exact absurd hpos (by decide)
      obtain ⟨r', hr', hflag⟩ := processOne_stored_flag i dok m acc rfl hkt
      rw [hid]
      exact ⟨r', hr', by rw [hflag]; simp [hg]⟩

/-- C9: a failed notifier delivery never reaches `tick`: the post-tick
ledger state is identical whatever the delivery outcomes are, the emitted
notification sequence is identical up to the recorded delivery bit, and
for every flag-guarded notification that fires, the corresponding
`announced*` flag is set on the stored record whether or not delivery
succeeded. -/
theorem C9_notifier_isolated :
    (∀ (st : St) (i : TickIn) (d1 d2 : String → NKind → Bool),
      (tick st i d1).1 = (tick st i d2).1) ∧
    (∀ (st : St) (i : TickIn) (d1 d2 : String → NKind → Bool),
      (tick st i d1).2.map undeliv = (tick st i d2).2.map undeliv) ∧
    (∀ (st : St) (i : TickIn) (dok : String → NKind → Bool) (n : Notif),
      n ∈ (tick st i dok).2 → n.kind ≠ NKind.nTrending →
      flagTrue (transitionsPhase i dok (bumpMissing i st.markets)
        (scrapePhase st i)).1 n.id n.kind) := by
  refine ⟨fun st i d1 d2 => (tick_dok st i d1 d2).1,
    fun st i d1 d2 => (tick_dok st i d1 d2).2, ?_⟩
  intro st i dok n hn hkt
  by_cases hcase : st.seeded = false ∧ scrapePhase st i ≠ []
  · rw [show tick st i dok = (seedPhase st i (scrapePhase st i), []) from by
      simp only [tick]; rw [if_pos hcase]] at hn
    cases hn
  · rw [show (tick st i dok).2 = (transitionsPhase i dok
        (bumpMissing i st.markets) (scrapePhase st i)).2 from by
      simp only [tick]; rw [if_neg hcase]] at hn
    exact fold_notif_flag i dok (scrapePhase st i)
      (bumpMissing i st.markets, [])
      (fun n2 hn2 _ => absurd hn2 (List.not_mem_nil n2)) n hn hkt

theorem C9_notifier_isolated_witness :
    (tick ⟨[], true⟩ (trendTick "X" true) allOk).1 =
      (tick ⟨[], true⟩ (trendTick "X" true) (fun _ _ => false)).1 :=
  C9_notifier_isolated.1 ⟨[], true⟩ (trendTick "X" true) allOk (fun _ _ => false)

theorem C10_retired_records_witness :
    retiredInv (run ⟨[], false⟩ [(trendTick "X" true, allOk)]).1.markets ∧
    ∀ r', lookupM (tick ⟨[("X", retiredRecX)], true⟩ (trendTick "U" true)
        allOk).1.markets "X" = some r' →
      r' = { retiredRecX with missingCount := r'.missingCount } :=
  ⟨C10_retired_records.1 [(trendTick "X" true, allOk)],
    C10_retired_records.2 ⟨[("X", retiredRecX)], true⟩ (trendTick "U" true)
      allOk "X" retiredRecX (by decide)
      (fun url sn kk ho hid r0 hr0 => by
        obtain rfl : openSnap "U" = sn := Option.some.inj ho
        obtain rfl : "U" = kk := Option.some.inj hid
        rw [show lookupM [("X", retiredRecX)] "U" = none from by decide] at hr0
        cases hr0)
      (by decide) (by decide)⟩

/-! ### Per-entry characterization of the transitions fold (C5, C6) -/

/-- Processing a results list that carries exactly one entry for a key:
the stored record's `announcedOpen` and `wasTrending`, and the exact
notification counts per kind, in terms of the pre-fold record. -/
theorem fold_entry (i : TickIn) (dok : String → NKind → Bool)
    (pre suf : List EDetail) (e : EDetail)
    (acc : List (String × MarketRec) × List Notif) (prev : MarketRec)
    (hpre : ∀ x ∈ pre, x.key ≠ e.key) (hsuf : ∀ x ∈ suf, x.key ≠ e.key)
    (hprev : (lookupM acc.1 e.key).getD (defaultRec e.url) = prev) :
    ∃ r', lookupM (List.foldl (processOne i dok) acc (pre ++ e :: suf)).1 e.key
        = some r' ∧
      r'.announcedOpen = (prev.announcedOpen || decide (openGuard i e prev)) ∧
      r'.wasTrending = (cardIds i.trending).contains e.key ∧
      (∀ k, countN (List.foldl (processOne i dok) acc (pre ++ e :: suf)).2
          e.key k =
        countN acc.2 e.key k + (if guardK i e prev k then 1 else 0)) := by
  rw [List.foldl_append, List.foldl_cons]
  obtain ⟨hpre1, hpre2⟩ := fold_lookup_ne_all i dok e.key pre acc hpre
  have hprev1 : (lookupM (List.foldl (processOne i dok) acc pre).1 e.key).getD
      (defaultRec e.url) = prev := by rw [hpre1, hprev]
  obtain ⟨r', hr', h1, _, _, _, _, h6, _⟩ :=
    processOne_stored i dok e (List.foldl (processOne i dok) acc pre) hprev1
  obtain ⟨hsuf1, hsuf2⟩ := fold_lookup_ne_all i dok e.key suf
    (processOne i dok (List.foldl (processOne i dok) acc pre) e) hsuf
  refine ⟨r', by rw [hsuf1]; exact hr', h1, h6, fun k => ?_⟩
  rw [hsuf2 k, processOne_snd_eq, countN_append, hprev1, countN_newNotifs_k,
    hpre2 k]

/-- C5: on a post-seed tick, for a watched market whose snapshot appears
exactly once in the results, the open notification fires iff the scraped
status is `open` AND the id is in this tick's active list AND the record's
`announcedOpen` flag is false; and the stored record has `announcedOpen`
set exactly when it already was or the announcement just fired.  In
particular an open market absent from the active list does not fire. -/
theorem C5_open_announcement (st : St) (i : TickIn)
    (dok : String → NKind → Bool) (pre suf : List EDetail) (e : EDetail)
    (prev : MarketRec) (hs : st.seeded = true)
    (hsplit : scrapePhase st i = pre ++ e :: suf)
    (hpre : ∀ x ∈ pre, x.key ≠ e.key) (hsuf : ∀ x ∈ suf, x.key ≠ e.key)
    (hprev : ((lookupM st.markets e.key).map (bumpRec i e.key)).getD
      (defaultRec e.url) = prev) :
    countN (tick st i dok).2 e.key NKind.nOpen =
      (if e.status = Status.isOpen ∧
          (cardIds i.active).contains e.key = true ∧
          prev.announcedOpen = false then 1 else 0) ∧
    ∃ r', lookupM (transitionsPhase i dok (bumpMissing i st.markets)
        (scrapePhase st i)).1 e.key = some r' ∧
      r'.announcedOpen = (prev.announcedOpen ||
        decide (e.status = Status.isOpen ∧
          (cardIds i.active).contains e.key = true ∧
          prev.announcedOpen = false)) := by
  have hprev' : (lookupM (bumpMissing i st.markets, ([] : List Notif)).1
      e.key).getD (defaultRec e.url) = prev := by
    rw [show lookupM (bumpMissing i st.markets, ([] : List Notif)).1 e.key =
      (lookupM st.markets e.key).map (bumpRec i e.key) from
      lookupM_bumpMissing i st.markets e.key, hprev]
  have hncase : ¬ (st.seeded = false ∧ scrapePhase st i ≠ []) := by
    rintro ⟨h1, _⟩
    rw [hs] at h1
    cases h1
  have htick : (tick st i dok).2 = (transitionsPhase i dok
      (bumpMissing i st.markets) (scrapePhase st i)).2 := by
    simp only [tick]
    rw [if_neg hncase]
  obtain ⟨r', hr', hflag, _, hcount⟩ := fold_entry i dok pre suf e
    (bumpMissing i st.markets, []) prev hpre hsuf hprev'
  have hguard : openGuard i e prev ↔ (e.status = Status.isOpen ∧
      (cardIds i.active).contains e.key = true ∧
      prev.announcedOpen = false) := Iff.rfl
  constructor
  · rw [htick]
    rw [show transitionsPhase i dok (bumpMissing i st.markets)
      (scrapePhase st i) = List.foldl (processOne i dok)
        (bumpMissing i st.markets, []) (scrapePhase st i) from rfl, hsplit]
    rw [hcount NKind.nOpen]
    rw [show countN ((bumpMissing i st.markets, ([] : List Notif))).2 e.key
      NKind.nOpen = 0 from rfl, Nat.zero_add]
    exact if_congr hguard rfl rfl
  · refine ⟨r', ?_, ?_⟩
    · rw [show transitionsPhase i dok (bumpMissing i st.markets)
        (scrapePhase st i) = List.foldl (processOne i dok)
          (bumpMissing i st.markets, []) (scrapePhase st i) from rfl, hsplit]
      exact hr'
    · rw [hflag]
      rw [decide_eq_decide.mpr hguard]

theorem C5_open_announcement_witness :
    countN (tick ⟨[], true⟩ (activeTick "X") allOk).2 "X" NKind.nOpen = 1 := by
  have h := (C5_open_announcement ⟨[], true⟩ (activeTick "X") allOk [] []
    (enrich (activeTick "X") (openSnap "X") "X") _ rfl (by decide)
    (fun x hx => absurd hx (List.not_mem_nil x))
    (fun x hx => absurd hx (List.not_mem_nil x)) rfl).1
  rw [if_pos (by decide)] at h
  exact h

/-- The five-tick trending scenario of the claim: the market is in the
trending list on ticks 1, 2, 3 and 5 and absent on tick 4. -/
def trendIns : List (TickIn × (String → NKind → Bool)) :=
  [(trendTick "X" true, allOk), (trendTick "X" true, allOk),
   (trendTick "X" true, allOk), (trendTick "X" false, allOk),
   (trendTick "X" true, allOk)]

/-- C6: trending notifications are edge-triggered on trending-list
membership.  (1) In general, on any post-seed tick, a market whose
snapshot appears exactly once in the results fires the trending
notification iff it is in this tick's trending list AND its stored
`wasTrending` is false, and the stored record's `wasTrending` is
overwritten with the current membership whether or not it fired.
(2) On the concrete 5-tick scenario (present, present, present, absent,
present) the cumulative trending count per tick is 1,1,1,1,2 — it fires
exactly on ticks 1 and 5 — and the stored `wasTrending` tracks the
membership on every tick. -/
theorem C6_trending_edge :
    (∀ (st : St) (i : TickIn) (dok : String → NKind → Bool)
      (pre suf : List EDetail) (e : EDetail) (prev : MarketRec),
      st.seeded = true →
      scrapePhase st i = pre ++ e :: suf →
      (∀ x ∈ pre, x.key ≠ e.key) → (∀ x ∈ suf, x.key ≠ e.key) →
      ((lookupM st.markets e.key).map (bumpRec i e.key)).getD
        (defaultRec e.url) = prev →
      countN (tick st i dok).2 e.key NKind.nTrending =
        (if (cardIds i.trending).contains e.key = true ∧
            prev.wasTrending = false then 1 else 0) ∧
      ∃ r', lookupM (transitionsPhase i dok (bumpMissing i st.markets)
          (scrapePhase st i)).1 e.key = some r' ∧
        r'.wasTrending = (cardIds i.trending).contains e.key) ∧
    ([1, 2, 3, 4, 5].map (fun n =>
        countN (run ⟨[], true⟩ (trendIns.take n)).2 "X" NKind.nTrending) =
      [1, 1, 1, 1, 2] ∧
     [1, 2, 3, 4, 5].map (fun n =>
        (lookupM (run ⟨[], true⟩ (trendIns.take n)).1.markets "X").map
          MarketRec.wasTrending) =
      [some true, some true, some true, some false, some true]) := by
  constructor
  · intro st i dok pre suf e prev hs hsplit hpre hsuf hprev
    have hprev' : (lookupM (bumpMissing i st.markets, ([] : List Notif)).1
        e.key).getD (defaultRec e.url) = prev := by
      rw [show lookupM (bumpMissing i st.markets, ([] : List Notif)).1 e.key =
        (lookupM st.markets e.key).map (bumpRec i e.key) from
        lookupM_bumpMissing i st.markets e.key, hprev]
    have hncase : ¬ (st.seeded = false ∧ scrapePhase st i ≠ []) := by
      rintro ⟨h1, _⟩
      rw [hs] at h1
      cases h1
    have htick : (tick st i dok).2 = (transitionsPhase i dok
        (bumpMissing i st.markets) (scrapePhase st i)).2 := by
      simp only [tick]
      rw [if_neg hncase]
    obtain ⟨r', hr', _, hwt, hcount⟩ := fold_entry i dok pre suf e
      (bumpMissing i st.markets, []) prev hpre hsuf hprev'
    constructor
    · rw [htick]
      rw [show transitionsPhase i dok (bumpMissing i st.markets)
        (scrapePhase st i) = List.foldl (processOne i dok)
          (bumpMissing i st.markets, []) (scrapePhase st i) from rfl, hsplit]
      rw [hcount NKind.nTrending]
      rw [show countN ((bumpMissing i st.markets, ([] : List Notif))).2 e.key
        NKind.nTrending = 0 from rfl, Nat.zero_add]
      exact if_congr Iff.rfl rfl rfl
    · refine ⟨r', ?_, hwt⟩
      rw [show transitionsPhase i dok (bumpMissing i st.markets)
        (scrapePhase st i) = List.foldl (processOne i dok)
          (bumpMissing i st.markets, []) (scrapePhase st i) from rfl, hsplit]
      exact hr'
  · constructor
    · decide
    · decide

theorem C6_trending_edge_witness :
    countN (tick ⟨[], true⟩ (trendTick "X" true) allOk).2 "X"
      NKind.nTrending = 1 := by
  have h := (C6_trending_edge.1 ⟨[], true⟩ (trendTick "X" true) allOk [] []
    (enrich (trendTick "X" true) (openSnap "X") "X") _ rfl (by decide)
    (fun x hx => absurd hx (List.not_mem_nil x))
    (fun x hx => absurd hx (List.not_mem_nil x)) rfl).1
  rw [if_pos (by decide)] at h
  exact h

end Auracle
